import Mathlib

/-!
Verification of the type-reconstruction core of a smart-contract decompiler:
the signature grammar parser (`parse_function_parameters`), the value
pretty-printer (`display`) and the bitmask type inferencer (`convert_bitmask`)
from `src/common/src/ether/evm/types.rs`.

Strings are modelled as `List Char`; the Rust string operations used by the
source (`split_once`, `split`, `contains`, `starts_with`, `ends_with`,
`replace`, `parse::<usize>`, `matches(..).count`) are given faithful
executable models below.  The parser's unbounded recursion is modelled with
an explicit fuel parameter: `parseF fuel s = none` means the fuel was
exhausted, so if that holds for every fuel the Rust function never returns
(infinite recursion / stack overflow).
-/

namespace Heimdall

abbrev Str := List Char

/-- Convert a Lean string literal to the `List Char` model. -/
def str (s : String) : Str := s.toList

/-- Model of Rust `str::split_once(c)`: split at the first occurrence of the
character `c`, returning the parts before and after it. -/
def splitOnce (c : Char) : Str → Option (Str × Str)
  | [] => none
  | x :: xs =>
    if x = c then some ([], xs)
    else (splitOnce c xs).map (fun p => (x :: p.1, p.2))

/-- Model of Rust `str::split(c)` for a one-character pattern: the list of
fragments between occurrences of `c` (an empty string yields one empty
fragment, as in Rust). -/
def splitChar (c : Char) : Str → List Str
  | [] => [[]]
  | x :: xs =>
    if x = c then [] :: splitChar c xs
    else
      match splitChar c xs with
      | [] => [[x]]
      | r :: rs => (x :: r) :: rs

/-- Model of Rust `str::contains(c)` for a one-character pattern. -/
def containsChar (c : Char) (s : Str) : Bool := s.any (fun x => x = c)

/-- Model of Rust `str::starts_with(pat)`. -/
def startsWithS (s pat : Str) : Bool := pat.isPrefixOf s

/-- Model of Rust `str::ends_with(pat)`. -/
def endsWithS (s pat : Str) : Bool := pat.reverse.isPrefixOf s.reverse

/-- Worker for `replaceAll`, with fuel (one unit per character consumed, so
`s.length` is always enough when the pattern is nonempty). -/
def replaceAllGo (pat rep : Str) : Nat → Str → Str
  | _, [] => []
  | 0, s => s
  | n + 1, x :: xs =>
    if pat ≠ [] ∧ pat.isPrefixOf (x :: xs) then
      rep ++ replaceAllGo pat rep n ((x :: xs).drop pat.length)
    else
      x :: replaceAllGo pat rep n xs

/-- Model of Rust `str::replace(pat, rep)`: replace every (non-overlapping,
leftmost-first) occurrence of `pat` by `rep`.  All call sites in the source
use a nonempty pattern. -/
def replaceAll (s pat rep : Str) : Str := replaceAllGo pat rep s.length s

/-- Modelled from the spec: `crate::utils::strings::replace_last`, whose
source is not under `src/`.  The spec (§4.1 step 1) uses it as "the text ...
with one trailing `)` removed": the last occurrence of the pattern character
is replaced by `rep`; a string without the pattern is returned unchanged. -/
def replace_last (s : Str) (c : Char) (rep : Str) : Str :=
  match splitOnce c s.reverse with
  | none => s
  | some (a, b) => b.reverse ++ rep ++ a.reverse

/-- Worker for `countSub`, with fuel. -/
def countSubGo (pat : Str) : Nat → Str → Nat
  | _, [] => 0
  | 0, _ => 0
  | n + 1, x :: xs =>
    if pat ≠ [] ∧ pat.isPrefixOf (x :: xs) then
      1 + countSubGo pat n ((x :: xs).drop pat.length)
    else
      countSubGo pat n xs

/-- Model of Rust `str::matches(pat).count()`: the number of non-overlapping
(leftmost-first) occurrences of `pat`. -/
def countSub (s pat : Str) : Nat := countSubGo pat s.length s

/-- Model of Rust `Vec::join(sep)` on string fragments. -/
def joinSep (sep : Str) : List Str → Str
  | [] => []
  | [t] => t
  | t :: ts => t ++ sep ++ joinSep sep ts

/-- Strip one optional leading `+`, as `str::parse` does. -/
def stripPlus : Str → Str
  | '+' :: r => r
  | s => s

/-- The numeric value of a digit string. -/
def digitsVal (t : Str) : Nat := t.foldl (fun a c => 10 * a + (c.toNat - 48)) 0

/-- Model of Rust `str::parse::<usize>()` (64-bit target): an optional
leading `+`, then at least one ASCII digit, failing on overflow past
`2^64 - 1`. -/
def parseUsize (s : Str) : Option Nat :=
  if stripPlus s = [] then none
  else if (stripPlus s).all Char.isDigit then
    if digitsVal (stripPlus s) < 2 ^ 64 then some (digitsVal (stripPlus s))
    else none
  else none

/-- The decimal digit character of `d % 10`. -/
def digitChar (d : Nat) : Char := Char.ofNat (48 + d % 10)

/-- Worker for `natDec`, with fuel (the number itself is always enough). -/
def natDecGo : Nat → Nat → Str → Str
  | 0, n, acc => digitChar n :: acc
  | fuel + 1, n, acc =>
    if n < 10 then digitChar n :: acc
    else natDecGo fuel (n / 10) (digitChar (n % 10) :: acc)

/-- The usual decimal rendering of a natural number (the `to_string` of the
integer tokens). -/
def natDec (n : Nat) : Str := natDecGo n n []

/-- Model of `ethers::abi::ParamType` (only the constructors the source
produces). -/
inductive ParamType where
  | Address : ParamType
  | Bytes : ParamType
  | Bool : ParamType
  | String : ParamType
  | Int (size : Nat) : ParamType
  | Uint (size : Nat) : ParamType
  | FixedBytes (size : Nat) : ParamType
  | Array (t : ParamType) : ParamType
  | FixedArray (t : ParamType) (size : Nat) : ParamType
  | Tuple (ts : List ParamType) : ParamType

/-- The complex-input re-merge loop of `parse_function_parameters`
(types.rs lines 24-44): scan comma fragments tracking a tuple depth that is
incremented once per fragment containing `(` and decremented once per
fragment containing `)`; fragments at positive depth are buffered and
rejoined with commas when the depth returns to zero.  A buffer left pending
at the end of the scan is dropped, exactly as in the source. -/
def remergeGo : List Str → Int → List Str → List Str → List Str
  | [], _, _, acc => acc
  | t :: ts, depth, cbuf, acc =>
    let d1 := if containsChar '(' t then depth + 1 else depth
    let cbuf1 := if 0 < d1 then cbuf ++ [t] else cbuf
    let acc1 := if 0 < d1 then acc else acc ++ [t]
    if containsChar ')' t then
      if d1 - 1 = 0 then remergeGo ts (d1 - 1) [] (acc1 ++ [joinSep [','] cbuf1])
      else remergeGo ts (d1 - 1) cbuf1 acc1
    else remergeGo ts d1 cbuf1 acc1

/-- Entry point of the re-merge loop (depth 0, empty buffers). -/
def remerge (ts : List Str) : List Str := remergeGo ts 0 [] []

/-- The per-token classification of the `for solidity_type in inputs` loop of
`parse_function_parameters` (types.rs lines 51-125), with the recursive calls
going through the parameter `g` (instantiated with the one-less-fuel parser by
`parseF`).  `none` means the fuel ran out inside a recursive call; `some []`
models `continue` without pushing (the token is dropped); `some [d]` pushes
one descriptor. -/
def stepTok (g : Str → Option (Option (List ParamType))) (t : Str) :
    Option (List ParamType) :=
  if t = str "address" then some [ParamType.Address]
  else if t = str "bytes" then some [ParamType.Bytes]
  else if t = str "bool" then some [ParamType.Bool]
  else if t = str "string" then some [ParamType.String]
  else if startsWithS t (str "(") ∧ ¬ endsWithS t (str "]") then
    match g t with
    | none => none
    | some none => some []
    | some (some l) => some [ParamType.Tuple l]
  else if endsWithS t (str "[]") then
    match g (replaceAll t (str "[]") []) with
    | none => none
    | some none => some []
    | some (some [x]) => some [ParamType.Array x]
    | some (some l) => some [ParamType.Array (ParamType.Tuple l)]
  else if endsWithS t (str "]") then
    match (splitChar '[' t).get? 1 with
    | none => some []
    | some sz =>
      match parseUsize (replaceAll sz (str "]") []) with
      | none => some []
      | some size =>
        match g (replaceAll t (str "[]") []) with
        | none => none
        | some none => some []
        | some (some [x]) => some [ParamType.FixedArray x size]
        | some (some l) => some [ParamType.FixedArray (ParamType.Tuple l) size]
  else if startsWithS t (str "int") then
    some [ParamType.Int ((parseUsize (replaceAll t (str "int") [])).getD 256)]
  else if startsWithS t (str "uint") then
    some [ParamType.Uint ((parseUsize (replaceAll t (str "uint") [])).getD 256)]
  else if startsWithS t (str "bytes") then
    some [ParamType.FixedBytes ((parseUsize (replaceAll t (str "bytes") [])).getD 32)]
  else some []

/-- The accumulation of descriptors over the token list (the loop around
`stepTok`); `none` propagates fuel exhaustion. -/
def parseLoop (g : Str → Option (Option (List ParamType))) :
    List Str → Option (List ParamType)
  | [] => some []
  | t :: ts =>
    match stepTok g t with
    | none => none
    | some ds =>
      match parseLoop g ts with
      | none => none
      | some rest => some (ds ++ rest)

/-- The `string_inputs` extraction of `parse_function_parameters` (types.rs
lines 14-17): the text after the first `(` (or the whole string when there is
none), with one trailing `)` removed. -/
def stringInputsOf (function_signature : Str) : Str :=
  match splitOnce '(' function_signature with
  | some p => replace_last p.2 ')' []
  | none => replace_last function_signature ')' []

/-- The token-list construction of `parse_function_parameters` (types.rs
lines 20-48): the naive comma split, re-merged when the input contains a
parenthesis. -/
def inputsOf (string_inputs : Str) : List Str :=
  if containsChar '(' string_inputs then remerge (splitChar ',' string_inputs)
  else splitChar ',' string_inputs

/-- The body of `parse_function_parameters` (types.rs lines 9-132), with the
recursive calls going through the parameter `g`. -/
def parseCore (g : Str → Option (Option (List ParamType)))
    (function_signature : Str) : Option (Option (List ParamType)) :=
  match parseLoop g (inputsOf (stringInputsOf function_signature)) with
  | none => none
  | some function_inputs =>
    match function_inputs with
    | [] => some none
    | l => some (some l)

/-- `parse_function_parameters` with an explicit fuel bound on the recursion
depth.  Result `none` = fuel exhausted (the Rust function is still recursing
at that depth, so `parseF fuel s = none` for every `fuel` means the Rust
function never returns on `s`); `some none` = Rust `None`; `some (some l)` =
Rust `Some(l)`. -/
def parseF : Nat → Str → Option (Option (List ParamType))
  | 0, _ => none
  | fuel + 1, s => parseCore (parseF fuel) s

/-- The non-recursive branches of the token classification (the primitive
types of types.rs lines 52-55 and 99-124, guarded by the same conditions and
in the same order as in `stepTok`); `none` when the token would take a
recursive branch or be dropped.  Used to state which tokens are "recognized
primitive type tokens". -/
def classifyPrimitive (t : Str) : Option ParamType :=
  if t = str "address" then some ParamType.Address
  else if t = str "bytes" then some ParamType.Bytes
  else if t = str "bool" then some ParamType.Bool
  else if t = str "string" then some ParamType.String
  else if startsWithS t (str "(") ∧ ¬ endsWithS t (str "]") then none
  else if endsWithS t (str "[]") then none
  else if endsWithS t (str "]") then none
  else if startsWithS t (str "int") then
    some (ParamType.Int ((parseUsize (replaceAll t (str "int") [])).getD 256))
  else if startsWithS t (str "uint") then
    some (ParamType.Uint ((parseUsize (replaceAll t (str "uint") [])).getD 256))
  else if startsWithS t (str "bytes") then
    some (ParamType.FixedBytes ((parseUsize (replaceAll t (str "bytes") [])).getD 32))
  else none

/-! ### The value formatter `display` (types.rs lines 136-186) -/

/-- Modelled from the spec (§3 DecodedValue): `ethers::abi::Token`, the
decoded-value tree consumed by `display`.  Address carries the hex digits of
its rendering (the external library's byte-to-text step), Int/Uint carry the
(unsigned, as in the library) big integer, Bytes/FixedBytes carry the raw
bytes as naturals. -/
inductive Token where
  | Address (hex : Str) : Token
  | Int (val : Nat) : Token
  | Uint (val : Nat) : Token
  | String (val : Str) : Token
  | Bool (val : Bool) : Token
  | Bytes (val : List Nat) : Token
  | FixedBytes (val : List Nat) : Token
  | Array (val : List Token) : Token
  | FixedArray (val : List Token) : Token
  | Tuple (val : List Token) : Token

/-- One lowercase hex digit. -/
def hexDigit (n : Nat) : Char :=
  if n < 10 then Char.ofNat (48 + n) else Char.ofNat (87 + n)

/-- Model of `hex::encode` (the `to_string` of a Bytes/FixedBytes token):
two lowercase hex characters per byte, high nibble first.  Bytes are
naturals, reduced mod 256 as a `u8` is. -/
def hexEncode : List Nat → Str
  | [] => []
  | b :: bs => hexDigit (b % 256 / 16) :: hexDigit (b % 16) :: hexEncode bs

/-- Model of `slice::chunks(64)`, with fuel (one unit per chunk, so the
length of the input is always enough). -/
def chunks64 : Nat → Str → List Str
  | _, [] => []
  | 0, s => [s]
  | n + 1, s => s.take 64 :: chunks64 n (s.drop 64)

/-- The per-chunk line construction of the Bytes/FixedBytes arm of `display`
(types.rs lines 150-161): the first chunk gets the `bytes` tag and `0x`, the
following chunks get a matching indentation.  The terminal colouring
(`.blue()`) is presentation styling, outside the modelled core (spec §1/§9),
so tags are modelled as their plain text. -/
def bytesLines (pfx : Str) : List Str → List Str
  | [] => []
  | c :: cs =>
    (pfx ++ str "bytes  " ++ str " 0x" ++ c) ::
      cs.map (fun c2 => pfx ++ str "       " ++ str "   " ++ c2)

mutual

/-- The per-token rendering of `display` (types.rs lines 140-182).  The
`prefix` argument is called `pfx` here. -/
def displayTok : Token → Str → List Str
  | Token.Address a, pfx => [pfx ++ str "address" ++ str " 0x" ++ a]
  | Token.Int v, pfx => [pfx ++ str "int    " ++ str " " ++ natDec v]
  | Token.Uint v, pfx => [pfx ++ str "uint   " ++ str " " ++ natDec v]
  | Token.String v, pfx => [pfx ++ str "string " ++ str " " ++ v]
  | Token.Bool b, pfx =>
    if b then [pfx ++ str "bool   " ++ str " true"]
    else [pfx ++ str "bool   " ++ str " false"]
  | Token.FixedBytes bs, pfx =>
    bytesLines pfx (chunks64 (hexEncode bs).length (hexEncode bs))
  | Token.Bytes bs, pfx =>
    bytesLines pfx (chunks64 (hexEncode bs).length (hexEncode bs))
  | Token.FixedArray vs, pfx =>
    if vs.length = 0 then [pfx ++ str "[]"]
    else (pfx ++ str "[") :: (display vs (pfx ++ str "   ") ++ [pfx ++ str "]"])
  | Token.Array vs, pfx =>
    if vs.length = 0 then [pfx ++ str "[]"]
    else (pfx ++ str "[") :: (display vs (pfx ++ str "   ") ++ [pfx ++ str "]"])
  | Token.Tuple vs, pfx =>
    if vs.length = 0 then [pfx ++ str "()"]
    else (pfx ++ str "(") :: (display vs (pfx ++ str "   ") ++ [pfx ++ str ")"])

/-- `display` (types.rs lines 136-186): one batch of rendered lines per
token, concatenated in order. -/
def display : List Token → Str → List Str
  | [], _ => []
  | t :: ts, pfx => displayTok t pfx ++ display ts pfx

end

/-! ### The bitmask type inferencer `convert_bitmask` (types.rs lines 190-220) -/

/-- Modelled from the spec (§3 Instruction, §6): a node of the expression
tree produced by the external symbolic-execution engine — either a raw
literal value or a nested operation with an opcode identity (its name) and
its own operands.  The `vm.rs`/`opcodes.rs` definitions
(`WrappedInput`/`WrappedOpcode`) are not under `src/`. -/
inductive WrappedInput where
  | raw (value : Nat) : WrappedInput
  | opcode (name : Str) (args : List WrappedInput) : WrappedInput

/-- Modelled from the spec: a `WrappedOpcode` — an opcode identity together
with its ordered input operands. -/
structure WrappedOp where
  name : Str
  inputs : List WrappedInput

/-- Modelled from the spec (§3 Instruction): the fields of `Instruction`
read by `convert_bitmask` — the raw stack input values (EVM words) and the
list of output expressions. -/
structure Instruction where
  inputs : List Nat
  output_operations : List WrappedOp

/-- Model of `ethers` `AbiEncode::encode_hex` on a `U256`: `0x` followed by
the 64 lowercase hex digits of the value (mod `2^256`), most significant
first. -/
def toHexPad : Nat → Nat → Str
  | 0, _ => []
  | n + 1, v => toHexPad n (v / 16) ++ [hexDigit (v % 16)]

/-- `encode_hex` of an EVM word. -/
def encodeHex (v : Nat) : Str := '0' :: 'x' :: toHexPad 64 (v % 2 ^ 256)

/-- The operand-scanning loop of `convert_bitmask` (types.rs lines 198-214),
threading the enumeration index `i` and the running `type_byte_size`
(initially 32).  `none` models the Rust index panic `instruction.inputs[i]`
when `i` is out of bounds; `some sz` is the final byte size.  Note the
source updates the size for nested operands that are NOT
CALLDATALOAD/CALLDATACOPY, and only when the mask opcode is AND (counting
`"ff"` matches) or OR (counting `"00"` matches). -/
def bitmask_loop (instruction_inputs : List Nat) (mask_name : Str) :
    List WrappedInput → Nat → Nat → Option Nat
  | [], _, sz => some sz
  | WrappedInput.raw _ :: rest, i, sz =>
    bitmask_loop instruction_inputs mask_name rest (i + 1) sz
  | WrappedInput.opcode nm _ :: rest, i, sz =>
    if ¬ (nm = str "CALLDATALOAD" ∨ nm = str "CALLDATACOPY") then
      if mask_name = str "AND" then
        match instruction_inputs.get? i with
        | none => none
        | some v =>
          bitmask_loop instruction_inputs mask_name rest (i + 1)
            (countSub (encodeHex v) (str "ff"))
      else if mask_name = str "OR" then
        match instruction_inputs.get? i with
        | none => none
        | some v =>
          bitmask_loop instruction_inputs mask_name rest (i + 1)
            (countSub (encodeHex v) (str "00"))
      else bitmask_loop instruction_inputs mask_name rest (i + 1) sz
    else bitmask_loop instruction_inputs mask_name rest (i + 1) sz

/-- `convert_bitmask` (types.rs lines 190-220).  `none` models a panic:
`instruction.output_operations[0]` on an empty list, or the loop's
`instruction.inputs[i]` out of bounds.  When no panic occurs the function
returns its `potential_types` vector, which the source never pushes to —
the result is always the empty list. -/
def convert_bitmask (instruction : Instruction) : Option (List Str) :=
  match instruction.output_operations with
  | [] => none
  | mask :: _ =>
    match bitmask_loop instruction.inputs mask.name mask.inputs 0 32 with
    | none => none
    | some _ => some []

/-- The final value of `type_byte_size` computed by `convert_bitmask`
(`none` again modelling the panics).  The source computes this size and then
stops (the width-to-type mapping step is absent), so this is the only
observable the loop produces. -/
def convert_bitmask_size (instruction : Instruction) : Option Nat :=
  match instruction.output_operations with
  | [] => none
  | mask :: _ => bitmask_loop instruction.inputs mask.name mask.inputs 0 32

/-- A concrete instruction for the inferencer: a bitwise AND whose nested
operand is a calldata load and whose mask constant (both as the raw operand
and as the instruction's input value) has its low 20 bytes fully set
(`2^160 - 1`, i.e. twenty `ff` byte groups and twelve `00` groups). -/
def andMaskInstruction : Instruction :=
  { inputs := [2 ^ 160 - 1, 2 ^ 160 - 1],
    output_operations :=
      [{ name := str "AND",
         inputs := [WrappedInput.opcode (str "CALLDATALOAD") [WrappedInput.raw 4],
                    WrappedInput.raw (2 ^ 160 - 1)] }] }

/-- A concrete instruction whose first output operation has more operands
than the instruction has input values (and whose mask opcode is AND). -/
def shortInputsInstruction : Instruction :=
  { inputs := [],
    output_operations :=
      [{ name := str "AND",
         inputs := [WrappedInput.opcode (str "ADD") []] }] }

/-- The lowercase ASCII alphabet (used to quantify over letter-only token
suffixes). -/
def lowerAlpha : List Char := "abcdefghijklmnopqrstuvwxyz".toList

/-- The ten decimal digit characters. -/
def digits10 : List Char := "0123456789".toList

/-! ### Spec-side reference definitions

These follow the spec's words rather than the source, and exist only to be
compared with the source-derived definitions above. -/

/-- Character-level scanner for `topLevelSplit`: split at commas that sit at
parenthesis depth zero, tracking the depth exactly. -/
def tlsGo : Str → Int → Str → List Str
  | [], _, cur => [cur]
  | c :: cs, d, cur =>
    if c = ',' ∧ d = 0 then cur :: tlsGo cs d []
    else
      tlsGo cs (if c = '(' then d + 1 else if c = ')' then d - 1 else d)
        (cur ++ [c])

/-- Spec-side definition of "the original top-level parameter boundaries"
(§4.1 step 3): the parameter list split at its depth-zero commas. -/
def topLevelSplit (s : Str) : List Str := tlsGo s 0 []

/-- Parenthesis balance check from a starting depth: the depth never becomes
negative and is zero at the end. -/
def balFrom : Int → Str → Bool
  | d, [] => d == 0
  | d, c :: cs =>
    if c = '(' then balFrom (d + 1) cs
    else if c = ')' then decide (0 < d) && balFrom (d - 1) cs
    else balFrom d cs

/-- Net parenthesis contribution of a fragment. -/
def parenDelta (s : Str) : Int := (s.count '(' : Int) - (s.count ')' : Int)

mutual

/-- Spec-side predicate (§3 TypeDescriptor): every `FixedBytes` size in the
descriptor tree lies in `1..32`. -/
def sizesOkTok : ParamType → Bool
  | ParamType.FixedBytes n => decide (1 ≤ n) && decide (n ≤ 32)
  | ParamType.Array t => sizesOkTok t
  | ParamType.FixedArray t _ => sizesOkTok t
  | ParamType.Tuple ts => sizesOkList ts
  | _ => true

/-- `sizesOkTok` over a descriptor list. -/
def sizesOkList : List ParamType → Bool
  | [] => true
  | t :: ts => sizesOkTok t && sizesOkList ts

end

/-! ## Divergence of the fixed-size-array branch

The token of a fixed-size array, e.g. `uint256[3]`, contains no occurrence
of the two-character substring `[]`, so `solidity_type.replace("[]", "")`
(types.rs line 86) leaves it unchanged and the recursive call receives the
very token being classified. -/

theorem parse_u3_diverges : ∀ n, parseF n (str "uint256[3]") = none := by
  intro n
  induction n with
  | zero => rfl
  | succ n ih =>
      rw [show parseF (n + 1) (str "uint256[3]") =
          (match parseLoop (parseF n) [str "uint256[3]"] with
            | none => none
            | some fi =>
              match fi with
              | [] => some none
              | l => some (some l)) from rfl,
        show parseLoop (parseF n) [str "uint256[3]"] =
          (match stepTok (parseF n) (str "uint256[3]") with
            | none => none
            | some ds => some (ds ++ [])) from rfl,
        show stepTok (parseF n) (str "uint256[3]") =
          (match parseF n (str "uint256[3]") with
            | none => none
            | some none => some []
            | some (some [x]) => some [ParamType.FixedArray x 3]
            | some (some l) => some [ParamType.FixedArray (ParamType.Tuple l) 3])
          from rfl,
        ih]

theorem parse_a2_diverges : ∀ n, parseF n (str "address[2]") = none := by
  intro n
  induction n with
  | zero => rfl
  | succ n ih =>
      rw [show parseF (n + 1) (str "address[2]") =
          (match parseLoop (parseF n) [str "address[2]"] with
            | none => none
            | some fi =>
              match fi with
              | [] => some none
              | l => some (some l)) from rfl,
        show parseLoop (parseF n) [str "address[2]"] =
          (match stepTok (parseF n) (str "address[2]") with
            | none => none
            | some ds => some (ds ++ [])) from rfl,
        show stepTok (parseF n) (str "address[2]") =
          (match parseF n (str "address[2]") with
            | none => none
            | some none => some []
            | some (some [x]) => some [ParamType.FixedArray x 2]
            | some (some l) => some [ParamType.FixedArray (ParamType.Tuple l) 2])
          from rfl,
        ih]

/-- C1.  The claim says the fixed-size-array branch recurses with the
bracket suffix stripped and that `f(uint256[3])` parses to
`[FixedArray(Uint(256), 3)]`.  In the source the branch recurses on
`replace("[]", "")`, which does not strip a `[N]` suffix, so the recursion
receives the same token again: for every fuel bound the parse of
`f(uint256[3])` is still recursing (the Rust function overflows the stack
instead of returning). -/
theorem c1_fixed_array_recursion_diverges :
    ∀ fuel, parseF fuel (str "f(uint256[3])") = none := by
  intro fuel
  cases fuel with
  | zero => rfl
  | succ n =>
      rw [show parseF (n + 1) (str "f(uint256[3])") =
          (match parseLoop (parseF n) [str "uint256[3]"] with
            | none => none
            | some fi =>
              match fi with
              | [] => some none
              | l => some (some l)) from rfl,
        show parseLoop (parseF n) [str "uint256[3]"] =
          (match stepTok (parseF n) (str "uint256[3]") with
            | none => none
            | some ds => some (ds ++ [])) from rfl,
        show stepTok (parseF n) (str "uint256[3]") =
          (match parseF n (str "uint256[3]") with
            | none => none
            | some none => some []
            | some (some [x]) => some [ParamType.FixedArray x 3]
            | some (some l) => some [ParamType.FixedArray (ParamType.Tuple l) 3])
          from rfl,
        parse_u3_diverges n]

/-- C2.  The claim says parsing terminates for every signature because the
recursion threads an explicit depth counter that fails with a bounds
violation at a configured maximum.  The source threads no counter at all
(and never produces `Error::BoundsError`): on `f(address[2])` the
fixed-size-array branch recurses on an unchanged token, so for every fuel
bound the parse is still recursing — the recursion is unbounded, not
depth-checked. -/
theorem c2_parse_recursion_unbounded :
    ∀ fuel, parseF fuel (str "f(address[2])") = none := by
  intro fuel
  cases fuel with
  | zero => rfl
  | succ n =>
      rw [show parseF (n + 1) (str "f(address[2])") =
          (match parseLoop (parseF n) [str "address[2]"] with
            | none => none
            | some fi =>
              match fi with
              | [] => some none
              | l => some (some l)) from rfl,
        show parseLoop (parseF n) [str "address[2]"] =
          (match stepTok (parseF n) (str "address[2]") with
            | none => none
            | some ds => some (ds ++ [])) from rfl,
        show stepTok (parseF n) (str "address[2]") =
          (match parseF n (str "address[2]") with
            | none => none
            | some none => some []
            | some (some [x]) => some [ParamType.FixedArray x 2]
            | some (some l) => some [ParamType.FixedArray (ParamType.Tuple l) 2])
          from rfl,
        parse_a2_diverges n]

/-- The five unit tests of `mod test_signature_decoder` (types.rs lines
222-356), reproduced by the embedding: the model and the source agree on
every test the repository ships. -/
theorem parse_matches_repo_tests :
    parseF 5 (str "test(uint256)") = some (some [ParamType.Uint 256]) ∧
      parseF 5 (str "test(uint256,string)") =
        some (some [ParamType.Uint 256, ParamType.String]) ∧
      parseF 5 (str "test(uint256,string[],uint256)") =
        some (some [ParamType.Uint 256, ParamType.Array ParamType.String,
          ParamType.Uint 256]) ∧
      parseF 5 (str "test(uint256,string,(address,address,uint24,address,uint256,uint256,uint256,uint160))") =
        some (some [ParamType.Uint 256, ParamType.String,
          ParamType.Tuple [ParamType.Address, ParamType.Address,
            ParamType.Uint 24, ParamType.Address, ParamType.Uint 256,
            ParamType.Uint 256, ParamType.Uint 256, ParamType.Uint 160]]) ∧
      parseF 5 (str "exactInputSingle((address,address,uint24,address,uint256,(uint256,uint256)[],uint160))") =
        some (some [ParamType.Tuple [ParamType.Address, ParamType.Address,
          ParamType.Uint 24, ParamType.Address, ParamType.Uint 256,
          ParamType.Array (ParamType.Tuple [ParamType.Uint 256, ParamType.Uint 256]),
          ParamType.Uint 160]]) :=
  ⟨rfl, rfl, rfl, rfl, rfl⟩

/-! ## The empty-result contract of the parser -/

/-- C8.  The final match of `parse_function_parameters` (types.rs lines
128-131) returns `None` exactly when no descriptors were pushed, so a
returned list is never empty; and both `f()` (empty parameter list) and
`f(zzz)` (only an unrecognized token) return `None`. -/
theorem c8_none_iff_no_descriptors :
    (∀ fuel s l, parseF fuel s = some (some l) → l ≠ []) ∧
      parseF 1 (str "f()") = some none ∧
      parseF 1 (str "f(zzz)") = some none := by
  refine ⟨?_, rfl, rfl⟩
  intro fuel s l h
  cases fuel with
  | zero => simp [parseF] at h
  | succ n =>
      rw [show parseF (n + 1) s = parseCore (parseF n) s from rfl] at h
      simp only [parseCore] at h
      split at h
      · exact absurd h (by simp)
      · split at h
        · simp at h
        · simp_all

/-- Witness for C8: a parse that does return a list, on which the theorem
yields nonemptiness. -/
theorem c8_witness : ¬ parseF 1 (str "f(uint8)") = some (some []) :=
  fun h => c8_none_iff_no_descriptors.1 1 (str "f(uint8)") [] h rfl

/-! ## The bitmask inferencer -/

/-- C3.  The claim says that on an AND instruction whose nested operand is
calldata-rooted and whose mask has 20 `ff` byte groups, the inferencer
computes width 20 and returns a non-empty ranked list topped by `address`.
The source does neither: the size update is guarded by the nested operand
NOT being CALLDATALOAD/CALLDATACOPY (types.rs line 202), so on this
instruction `type_byte_size` stays at its default 32, and `potential_types`
is never pushed to, so the returned list is empty. -/
theorem c3_bitmask_empty_result :
    convert_bitmask andMaskInstruction = some [] ∧
      convert_bitmask_size andMaskInstruction = some 32 :=
  ⟨rfl, rfl⟩

/-- The loop of `convert_bitmask` cannot hit its index panic when the
instruction has at least as many inputs as there are operands left to scan. -/
theorem bitmask_loop_total (ins : List Nat) (nm : Str) :
    ∀ (l : List WrappedInput) (i sz : Nat), i + l.length ≤ ins.length →
      ∃ v, bitmask_loop ins nm l i sz = some v := by
  intro l
  induction l with
  | nil => exact fun i sz _ => ⟨sz, rfl⟩
  | cons w rest ih =>
      intro i sz h
      have hrest : (i + 1) + rest.length ≤ ins.length := by
        simp [List.length_cons] at h; omega
      have hi : i < ins.length := by simp [List.length_cons] at h; omega
      cases w with
      | raw v => exact ih (i + 1) sz hrest
      | opcode onm args =>
          simp only [bitmask_loop]
          split
          · split
            · cases hg : ins.get? i with
              | none =>
                  exact absurd (List.get?_eq_none.mp hg) (by omega)
              | some v => exact ih (i + 1) _ hrest
            · split
              · cases hg : ins.get? i with
                | none =>
                    exact absurd (List.get?_eq_none.mp hg) (by omega)
                | some v => exact ih (i + 1) _ hrest
              · exact ih (i + 1) sz hrest
          · exact ih (i + 1) sz hrest

/-- C4 counterexample.  The claim says `convert_bitmask` never panics, even
on an empty `output_operations` list or when the instruction has fewer
inputs than the output expression has operands; but
`instruction.output_operations[0]` (types.rs line 191) panics on the former
and `instruction.inputs[i]` (line 205) panics on the latter. -/
theorem c4_counterexample_panics :
    convert_bitmask { inputs := [], output_operations := [] } = none ∧
      convert_bitmask shortInputsInstruction = none :=
  ⟨rfl, rfl⟩

/-- C4 (amended).  `convert_bitmask` is total — and returns the empty
default result — on every instruction that has at least one output
operation and at least as many input values as that operation has operands;
outside that domain the two indexings can panic. -/
theorem c4_bitmask_total_on_wellformed (inst : Instruction)
    (mask : WrappedOp) (rest : List WrappedOp)
    (hout : inst.output_operations = mask :: rest)
    (hlen : mask.inputs.length ≤ inst.inputs.length) :
    convert_bitmask inst = some [] := by
  unfold convert_bitmask
  rw [hout]
  obtain ⟨v, hv⟩ :=
    bitmask_loop_total inst.inputs mask.name mask.inputs 0 32 (by omega)
  simp [hv]

/-- Witness for C4 (amended): the well-formed AND instruction above. -/
theorem c4_total_witness :
    andMaskInstruction.output_operations =
        { name := str "AND",
          inputs := [WrappedInput.opcode (str "CALLDATALOAD") [WrappedInput.raw 4],
                     WrappedInput.raw (2 ^ 160 - 1)] } :: [] ∧
      convert_bitmask andMaskInstruction = some [] :=
  ⟨rfl, c4_bitmask_total_on_wellformed andMaskInstruction _ _ rfl (by decide)⟩

/-! ## The tuple re-merge step -/

/-- C5 counterexample.  The re-merge loop adjusts the depth once per
fragment containing a parenthesis, not once per parenthesis, so a nested
tuple that closes immediately before its enclosing tuple puts `))` into one
comma fragment and the depth never returns to zero: on the parameter list
`(bool,(bool,bool))` the buffered fragments are dropped and the merge
returns no token at all, while the top-level boundaries are the single
parameter `(bool,(bool,bool))`; the whole signature consequently parses to
`None` instead of a tuple. -/
theorem c5_counterexample_adjacent_closers :
    remerge (splitChar ',' (str "(bool,(bool,bool))")) = [] ∧
      topLevelSplit (str "(bool,(bool,bool))") = [str "(bool,(bool,bool))"] ∧
      parseF 1 (str "f((bool,(bool,bool)))") = some none :=
  ⟨rfl, rfl, rfl⟩

/-! ## FixedBytes sizes -/

/-- C10 counterexample.  The claim says every `FixedBytes` produced by the
parser has size between 1 and 32; but the `bytes` branch (types.rs lines
116-124) performs no range check, so `f(bytes33)` yields `FixedBytes 33`
(and `f(bytes0)` would yield `FixedBytes 0`). -/
theorem c10_counterexample_bytes33 :
    parseF 1 (str "f(bytes33)") = some (some [ParamType.FixedBytes 33]) ∧
      sizesOkList [ParamType.FixedBytes 33] = false := by
  refine ⟨rfl, ?_⟩
  simp [sizesOkList, sizesOkTok]

/-! ## The byte-chunking of the formatter -/

theorem hexEncode_length (bs : List Nat) : (hexEncode bs).length = 2 * bs.length := by
  induction bs with
  | nil => rfl
  | cons b bs ih => simp [hexEncode, ih]; omega

theorem chunks64_nil (f : Nat) : chunks64 f [] = [] := by
  cases f <;> rfl

theorem chunks64_step (f : Nat) (s : Str) (hs : s ≠ []) (hf : 0 < f) :
    chunks64 f s = s.take 64 :: chunks64 (f - 1) (s.drop 64) := by
  cases s with
  | nil => exact absurd rfl hs
  | cons a t =>
      cases f with
      | zero => omega
      | succ n => rfl

/-- A 130-character string falls into exactly three `chunks(64)` chunks. -/
theorem chunks64_of_length_130 (s : Str) (h : s.length = 130) :
    chunks64 130 s = [s.take 64, (s.drop 64).take 64, (s.drop 64).drop 64] := by
  have h1 : s ≠ [] := by
    intro e; rw [e] at h; simp at h
  have h2 : s.drop 64 ≠ [] := by
    intro e
    have := congrArg List.length e
    simp [h] at this
  have h3 : (s.drop 64).drop 64 ≠ [] := by
    intro e
    have := congrArg List.length e
    simp [h, List.drop_drop] at this
  rw [chunks64_step 130 s h1 (by norm_num),
    chunks64_step (130 - 1) _ h2 (by norm_num),
    chunks64_step (130 - 1 - 1) _ h3 (by norm_num)]
  have h4 : ((s.drop 64).drop 64).drop 64 = [] := by
    apply List.drop_eq_nil_of_le
    simp [h, List.drop_drop]
  rw [h4, chunks64_nil]
  have h5 : ((s.drop 64).drop 64).take 64 = (s.drop 64).drop 64 := by
    apply List.take_of_length_le
    simp [h, List.drop_drop]
  rw [h5]

/-- C9.  Rendering a 65-byte Bytes or FixedBytes value hex-encodes it (130
characters) and emits exactly three lines: 64, 64 and 2 hex characters, the
first carrying the `bytes` tag and `0x` prefix, the later ones only the
matching indentation. -/
theorem c9_bytes_chunked_rendering (bs : List Nat) (pfx : Str)
    (h : bs.length = 65) :
    displayTok (Token.Bytes bs) pfx =
        [pfx ++ str "bytes  " ++ str " 0x" ++ (hexEncode bs).take 64,
         pfx ++ str "       " ++ str "   " ++ ((hexEncode bs).drop 64).take 64,
         pfx ++ str "       " ++ str "   " ++ ((hexEncode bs).drop 64).drop 64] ∧
      displayTok (Token.FixedBytes bs) pfx = displayTok (Token.Bytes bs) pfx ∧
      ((hexEncode bs).take 64).length = 64 ∧
      (((hexEncode bs).drop 64).take 64).length = 64 ∧
      (((hexEncode bs).drop 64).drop 64).length = 2 := by
  have hl : (hexEncode bs).length = 130 := by rw [hexEncode_length, h]
  have hc := chunks64_of_length_130 _ hl
  refine ⟨?_, ?_, ?_, ?_, ?_⟩
  · simp only [displayTok]
    rw [hl, hc]
    simp [bytesLines]
  · simp only [displayTok]
  · simp [hl]
  · simp [hl]
  · simp [hl, List.drop_drop]

/-- Witness for C9: a concrete 65-byte value. -/
theorem c9_witness :
    (List.replicate 65 171).length = 65 ∧
      displayTok (Token.Bytes (List.replicate 65 171)) (str "  ") =
        [str "  " ++ str "bytes  " ++ str " 0x" ++
            (hexEncode (List.replicate 65 171)).take 64,
         str "  " ++ str "       " ++ str "   " ++
            ((hexEncode (List.replicate 65 171)).drop 64).take 64,
         str "  " ++ str "       " ++ str "   " ++
            ((hexEncode (List.replicate 65 171)).drop 64).drop 64] :=
  ⟨by simp, (c9_bytes_chunked_rendering (List.replicate 65 171) (str "  ")
      (by simp)).1⟩

/-! ## String-pipeline lemmas for flat signatures -/

theorem splitOnce_of_no_occ (c : Char) (name rest : Str) (h : c ∉ name) :
    splitOnce c (name ++ c :: rest) = some (name, rest) := by
  induction name with
  | nil => simp [splitOnce]
  | cons a t ih =>
      have ha : ¬ a = c := fun e => h (by simp [e])
      show splitOnce c (a :: (t ++ c :: rest)) = some (a :: t, rest)
      simp only [splitOnce, if_neg ha]
      rw [ih (fun m => h (List.mem_cons_of_mem _ m))]
      rfl

theorem replace_last_strip (xs : Str) :
    replace_last (xs ++ [')']) ')' [] = xs := by
  unfold replace_last
  have hrev : (xs ++ [')']).reverse = ')' :: xs.reverse := by simp
  rw [hrev, show splitOnce ')' (')' :: xs.reverse) = some ([], xs.reverse) from by
    simp [splitOnce]]
  simp

theorem splitChar_no_sep (c : Char) (s : Str) (h : c ∉ s) :
    splitChar c s = [s] := by
  induction s with
  | nil => rfl
  | cons a t ih =>
      have ha : ¬ a = c := fun e => h (by simp [e])
      simp only [splitChar, if_neg ha, ih (fun m => h (List.mem_cons_of_mem _ m))]

theorem splitChar_append_sep (c : Char) (t r : Str) (h : c ∉ t) :
    splitChar c (t ++ c :: r) = t :: splitChar c r := by
  induction t with
  | nil => simp [splitChar]
  | cons a t' ih =>
      have ha : ¬ a = c := fun e => h (by simp [e])
      show splitChar c (a :: (t' ++ c :: r)) = (a :: t') :: splitChar c r
      simp only [splitChar, if_neg ha]
      rw [ih (fun m => h (List.mem_cons_of_mem _ m))]

theorem splitChar_joinSep (ts : List Str) (h : ∀ t ∈ ts, ',' ∉ t)
    (hne : ts ≠ []) : splitChar ',' (joinSep [','] ts) = ts := by
  induction ts with
  | nil => exact absurd rfl hne
  | cons t ts ih =>
      cases ts with
      | nil => exact splitChar_no_sep ',' t (h t (by simp))
      | cons t' ts' =>
          have hj : joinSep [','] (t :: t' :: ts') =
              t ++ ',' :: joinSep [','] (t' :: ts') := by
            simp [joinSep]
          rw [hj, splitChar_append_sep ',' t _ (h t (by simp)),
            ih (fun u hu => h u (List.mem_cons_of_mem _ hu)) (by simp)]

theorem mem_joinSep (c : Char) (ts : List Str) (h : c ∈ joinSep [','] ts) :
    c = ',' ∨ ∃ t ∈ ts, c ∈ t := by
  induction ts with
  | nil => simp [joinSep] at h
  | cons t ts ih =>
      cases ts with
      | nil =>
          simp only [joinSep] at h
          exact Or.inr ⟨t, by simp, h⟩
      | cons t' ts' =>
          simp only [joinSep, List.append_assoc, List.mem_append,
            List.mem_singleton] at h
          rcases h with h | h | h
          · exact Or.inr ⟨t, by simp, h⟩
          · exact Or.inl h
          · rcases ih h with h' | ⟨u, hu, hc⟩
            · exact Or.inl h'
            · exact Or.inr ⟨u, List.mem_cons_of_mem _ hu, hc⟩

theorem containsChar_false (c : Char) (s : Str) (h : c ∉ s) :
    containsChar c s = false := by
  simp only [containsChar, List.any_eq_false, decide_eq_true_eq]
  exact fun x hx e => h (e ▸ hx)

set_option maxHeartbeats 1000000 in
theorem stepTok_classify (g : Str → Option (Option (List ParamType)))
    (t : Str) (d : ParamType) (h : classifyPrimitive t = some d) :
    stepTok g t = some [d] := by
  unfold classifyPrimitive at h
  unfold stepTok
  split_ifs at h ⊢ <;>
    first
      | (injection h with h2; rw [h2])
      | exact Option.noConfusion h

theorem parseLoop_classify (g : Str → Option (Option (List ParamType)))
    (ts : List Str) (ds : List ParamType)
    (h : List.Forall₂ (fun t d => classifyPrimitive t = some d) ts ds) :
    parseLoop g ts = some ds := by
  induction h with
  | nil => rfl
  | cons h1 _ ih =>
      simp only [parseLoop]
      rw [stepTok_classify g _ _ h1]
      simp only [ih]
      rfl

/-- The full parse of a flat signature `name ++ "(" ++ t1,...,tn ++ ")"`
whose tokens all classify as primitives: the token boundaries are exactly
recovered and each token contributes its descriptor, in order. -/
theorem parse_flat (name : Str) (ts : List Str) (ds : List ParamType)
    (fuel : Nat) (hname : '(' ∉ name)
    (htok : ∀ t ∈ ts, ',' ∉ t ∧ '(' ∉ t ∧ ')' ∉ t)
    (hcl : List.Forall₂ (fun t d => classifyPrimitive t = some d) ts ds)
    (hne : ts ≠ []) :
    parseF (fuel + 1) (name ++ '(' :: (joinSep [','] ts ++ [')'])) =
      some (some ds) := by
  have hjoin_paren : ')' ∉ joinSep [','] ts := by
    intro hm
    rcases mem_joinSep _ _ hm with h | ⟨t, ht, hc⟩
    · exact absurd h (by decide)
    · exact (htok t ht).2.2 hc
  have hjoin_open : '(' ∉ joinSep [','] ts := by
    intro hm
    rcases mem_joinSep _ _ hm with h | ⟨t, ht, hc⟩
    · exact absurd h (by decide)
    · exact (htok t ht).2.1 hc
  have hds : ds ≠ [] := by
    intro e
    subst e
    cases hcl
    exact hne rfl
  have hsi : stringInputsOf (name ++ '(' :: (joinSep [','] ts ++ [')'])) =
      joinSep [','] ts := by
    unfold stringInputsOf
    rw [show name ++ '(' :: (joinSep [','] ts ++ [')']) =
        name ++ '(' :: (joinSep [','] ts ++ [')']) from rfl,
      splitOnce_of_no_occ '(' name _ hname]
    exact replace_last_strip _
  have hin : inputsOf (joinSep [','] ts) = ts := by
    unfold inputsOf
    rw [containsChar_false '(' _ hjoin_open]
    simp only [Bool.false_eq_true, if_false]
    exact splitChar_joinSep ts (fun t ht => (htok t ht).1) hne
  simp only [parseF]
  unfold parseCore
  rw [hsi, hin, parseLoop_classify (parseF fuel) ts ds hcl]
  cases ds with
  | nil => exact absurd rfl hds
  | cons d ds' => rfl

/-! ## Character-class facts and token-classification lemmas -/

theorem lowerAlpha_not_digit : ∀ c ∈ lowerAlpha, c.isDigit = false := by decide

theorem lowerAlpha_ne_plus : ∀ c ∈ lowerAlpha, ¬ c = '+' := by decide

theorem lowerAlpha_bracket : ∀ c ∈ lowerAlpha, (']' == c) = false := by decide

theorem lowerAlpha_not_special :
    ∀ c ∈ lowerAlpha, ¬ c = ',' ∧ ¬ c = '(' ∧ ¬ c = ')' := by decide

theorem nil_isPrefixOf (l : Str) : List.isPrefixOf [] l = true := by
  cases l <;> rfl

theorem isPrefixOf_append (p l : Str) : p.isPrefixOf (p ++ l) = true := by
  induction p with
  | nil => exact nil_isPrefixOf l
  | cons a as ih => simp [List.isPrefixOf, ih]

theorem stripPlus_cons (x : Char) (xs : Str) (h : ¬ x = '+') :
    stripPlus (x :: xs) = x :: xs := by
  unfold stripPlus
  split
  · rename_i heq
    injection heq with h1 _
    exact absurd h1 h
  · rfl

/-- With an empty replacement, `replace` only removes characters. -/
theorem mem_replaceAllGo (pat : Str) :
    ∀ (f : Nat) (s : Str) (c : Char), c ∈ replaceAllGo pat [] f s → c ∈ s := by
  intro f
  induction f with
  | zero =>
      intro s c h
      cases s with
      | nil => simp [replaceAllGo] at h
      | cons x xs => exact h
  | succ n ih =>
      intro s c h
      cases s with
      | nil => simp [replaceAllGo] at h
      | cons x xs =>
          rw [show replaceAllGo pat [] (n + 1) (x :: xs) =
              if pat ≠ [] ∧ pat.isPrefixOf (x :: xs) then
                [] ++ replaceAllGo pat [] n ((x :: xs).drop pat.length)
              else x :: replaceAllGo pat [] n xs from rfl] at h
          split at h
          · exact List.mem_of_mem_drop (ih _ c (by simpa using h))
          · rcases List.mem_cons.mp h with rfl | h'
            · simp
            · exact List.mem_cons_of_mem _ (ih _ c h')

theorem parseUsize_none_of_lower (s : Str) (h : ∀ c ∈ s, c ∈ lowerAlpha) :
    parseUsize s = none := by
  cases s with
  | nil => rfl
  | cons x xs =>
      have hx : x ∈ lowerAlpha := h x (by simp)
      have hsp : stripPlus (x :: xs) = x :: xs :=
        stripPlus_cons x xs (lowerAlpha_ne_plus x hx)
      unfold parseUsize
      rw [hsp]
      rw [if_neg (by simp)]
      rw [if_neg (by
        simp only [List.all_cons, Bool.and_eq_true]
        intro hall
        rw [lowerAlpha_not_digit x hx] at hall
        exact Bool.noConfusion hall.1)]

theorem endsWith_bracket_false (s : Str) (c : Char) (h : (']' == c) = false) :
    endsWithS (s ++ [c]) (str "]") = false := by
  unfold endsWithS
  rw [List.reverse_append]
  show List.isPrefixOf [']'] (c :: s.reverse) = false
  simp [List.isPrefixOf, h]

theorem endsWith_brackets_false (s : Str) (c : Char) (h : (']' == c) = false) :
    endsWithS (s ++ [c]) (str "[]") = false := by
  unfold endsWithS
  rw [List.reverse_append]
  show List.isPrefixOf [']', '['] (c :: s.reverse) = false
  simp [List.isPrefixOf, h]

/-- A `uint` token with a letters-only (hence unparseable) suffix classifies
to the 256-bit default. -/
theorem classify_uint_lower (ds : Str) (h : ∀ c ∈ ds, c ∈ lowerAlpha) :
    classifyPrimitive (str "uint" ++ ds) = some (ParamType.Uint 256) := by
  have hrep : ∀ c ∈ replaceAll (str "uint" ++ ds) (str "uint") [], c ∈ lowerAlpha := by
    intro c hc
    have hmem : c ∈ str "uint" ++ ds := mem_replaceAllGo _ _ _ _ hc
    rcases List.mem_append.mp hmem with h1 | h2
    · exact (show ∀ c ∈ str "uint", c ∈ lowerAlpha from by decide) c h1
    · exact h c h2
  have hP : parseUsize (replaceAll (str "uint" ++ ds) (str "uint") []) = none :=
    parseUsize_none_of_lower _ hrep
  rcases List.eq_nil_or_concat ds with rfl | ⟨ds0, c, hds⟩
  · rfl
  · rw [List.concat_eq_append] at hds
    subst hds
    have hc : c ∈ lowerAlpha := h c (by simp)
    have hb1 : (']' == c) = false := lowerAlpha_bracket c hc
    have e1 : endsWithS (str "uint" ++ (ds0 ++ [c])) (str "[]") = false := by
      rw [← List.append_assoc]
      exact endsWith_brackets_false _ c hb1
    have e2 : endsWithS (str "uint" ++ (ds0 ++ [c])) (str "]") = false := by
      rw [← List.append_assoc]
      exact endsWith_bracket_false _ c hb1
    unfold classifyPrimitive
    rw [if_neg (show ¬ (str "uint" ++ (ds0 ++ [c]) = str "address") from fun e => by
        injection e with h1 _
        exact absurd h1 (by decide)),
      if_neg (show ¬ (str "uint" ++ (ds0 ++ [c]) = str "bytes") from fun e => by
        injection e with h1 _
        exact absurd h1 (by decide)),
      if_neg (show ¬ (str "uint" ++ (ds0 ++ [c]) = str "bool") from fun e => by
        injection e with h1 _
        exact absurd h1 (by decide)),
      if_neg (show ¬ (str "uint" ++ (ds0 ++ [c]) = str "string") from fun e => by
        injection e with h1 _
        exact absurd h1 (by decide)),
      if_neg (show ¬ (startsWithS (str "uint" ++ (ds0 ++ [c])) (str "(") = true ∧
          ¬ endsWithS (str "uint" ++ (ds0 ++ [c])) (str "]") = true) from
        fun hab => Bool.noConfusion hab.1),
      if_neg (show ¬ endsWithS (str "uint" ++ (ds0 ++ [c])) (str "[]") = true from
        fun hb => Bool.noConfusion (e1 ▸ hb)),
      if_neg (show ¬ endsWithS (str "uint" ++ (ds0 ++ [c])) (str "]") = true from
        fun hb => Bool.noConfusion (e2 ▸ hb)),
      if_neg (show ¬ startsWithS (str "uint" ++ (ds0 ++ [c])) (str "int") = true from
        fun hb => Bool.noConfusion hb),
      if_pos (show startsWithS (str "uint" ++ (ds0 ++ [c])) (str "uint") = true from
        isPrefixOf_append (str "uint") (ds0 ++ [c])),
      hP]
    rfl

/-- A `bytes` token with a nonempty letters-only suffix classifies to the
32-byte default. -/
theorem classify_bytes_lower (ds : Str) (hne : ds ≠ [])
    (h : ∀ c ∈ ds, c ∈ lowerAlpha) :
    classifyPrimitive (str "bytes" ++ ds) = some (ParamType.FixedBytes 32) := by
  have hrep : ∀ c ∈ replaceAll (str "bytes" ++ ds) (str "bytes") [], c ∈ lowerAlpha := by
    intro c hc
    have hmem : c ∈ str "bytes" ++ ds := mem_replaceAllGo _ _ _ _ hc
    rcases List.mem_append.mp hmem with h1 | h2
    · exact (show ∀ c ∈ str "bytes", c ∈ lowerAlpha from by decide) c h1
    · exact h c h2
  have hP : parseUsize (replaceAll (str "bytes" ++ ds) (str "bytes") []) = none :=
    parseUsize_none_of_lower _ hrep
  have hne2 : ¬ (str "bytes" ++ ds = str "bytes") := by
    intro e
    have e2 : str "bytes" ++ ds = str "bytes" ++ ([] : Str) :=
      e.trans (List.append_nil (str "bytes")).symm
    exact hne (List.append_cancel_left e2)
  rcases List.eq_nil_or_concat ds with rfl | ⟨ds0, c, hds⟩
  · exact absurd rfl hne
  · rw [List.concat_eq_append] at hds
    subst hds
    have hc : c ∈ lowerAlpha := h c (by simp)
    have hb1 : (']' == c) = false := lowerAlpha_bracket c hc
    have e1 : endsWithS (str "bytes" ++ (ds0 ++ [c])) (str "[]") = false := by
      rw [← List.append_assoc]
      exact endsWith_brackets_false _ c hb1
    have e2 : endsWithS (str "bytes" ++ (ds0 ++ [c])) (str "]") = false := by
      rw [← List.append_assoc]
      exact endsWith_bracket_false _ c hb1
    unfold classifyPrimitive
    rw [if_neg (show ¬ (str "bytes" ++ (ds0 ++ [c]) = str "address") from fun e => by
        injection e with h1 _
        exact absurd h1 (by decide)),
      if_neg hne2,
      if_neg (show ¬ (str "bytes" ++ (ds0 ++ [c]) = str "bool") from fun e => by
        injection e with _ e
        injection e with h2 _
        exact absurd h2 (by decide)),
      if_neg (show ¬ (str "bytes" ++ (ds0 ++ [c]) = str "string") from fun e => by
        injection e with h1 _
        exact absurd h1 (by decide)),
      if_neg (show ¬ (startsWithS (str "bytes" ++ (ds0 ++ [c])) (str "(") = true ∧
          ¬ endsWithS (str "bytes" ++ (ds0 ++ [c])) (str "]") = true) from
        fun hab => Bool.noConfusion hab.1),
      if_neg (show ¬ endsWithS (str "bytes" ++ (ds0 ++ [c])) (str "[]") = true from
        fun hb => Bool.noConfusion (e1 ▸ hb)),
      if_neg (show ¬ endsWithS (str "bytes" ++ (ds0 ++ [c])) (str "]") = true from
        fun hb => Bool.noConfusion (e2 ▸ hb)),
      if_neg (show ¬ startsWithS (str "bytes" ++ (ds0 ++ [c])) (str "int") = true from
        fun hb => Bool.noConfusion hb),
      if_neg (show ¬ startsWithS (str "bytes" ++ (ds0 ++ [c])) (str "uint") = true from
        fun hb => Bool.noConfusion hb),
      if_pos (show startsWithS (str "bytes" ++ (ds0 ++ [c])) (str "bytes") = true from
        isPrefixOf_append (str "bytes") (ds0 ++ [c])),
      hP]
    rfl

/-! ## Flat primitive signatures -/

/-- C6.  For a flat signature `name(t1,...,tn)` whose tokens are all
recognized primitive type tokens (tokens the primitive branches of the
classification accept, with no commas or parentheses), the parse returns
exactly one descriptor per token, in the original order, each being the
classification of its own token. -/
theorem c6_flat_primitive_signature (name : Str) (ts : List Str)
    (ds : List ParamType) (fuel : Nat) (hname : '(' ∉ name)
    (htok : ∀ t ∈ ts, ',' ∉ t ∧ '(' ∉ t ∧ ')' ∉ t)
    (hcl : List.Forall₂ (fun t d => classifyPrimitive t = some d) ts ds)
    (hne : ts ≠ []) :
    parseF (fuel + 1) (name ++ '(' :: (joinSep [','] ts ++ [')'])) =
        some (some ds) ∧
      ds.length = ts.length :=
  ⟨parse_flat name ts ds fuel hname htok hcl hne, (hcl.length_eq).symm⟩

/-- Witness for C6: `f(uint256,bool,address)`. -/
theorem c6_witness :
    str "f" ++ '(' :: (joinSep [','] [str "uint256", str "bool", str "address"]
        ++ [')']) = str "f(uint256,bool,address)" ∧
      parseF 1 (str "f" ++ '(' ::
          (joinSep [','] [str "uint256", str "bool", str "address"] ++ [')'])) =
        some (some [ParamType.Uint 256, ParamType.Bool, ParamType.Address]) ∧
      ([ParamType.Uint 256, ParamType.Bool, ParamType.Address].length =
        [str "uint256", str "bool", str "address"].length) :=
  ⟨rfl,
    (c6_flat_primitive_signature (str "f")
      [str "uint256", str "bool", str "address"]
      [ParamType.Uint 256, ParamType.Bool, ParamType.Address] 0
      (by decide) (by decide)
      (List.Forall₂.cons rfl (List.Forall₂.cons rfl
        (List.Forall₂.cons rfl List.Forall₂.nil)))
      (by simp)).1,
    rfl⟩

/-- C7.  `uint` with no digits parses to `Uint 256`, the exact token `bytes`
to the dynamic `Bytes`, `bytes32` to `FixedBytes 32`; and the numeric
defaults (256 bits / 32 bytes) are applied whenever the trailing digits are
absent or unparseable — here for every letters-only suffix. -/
theorem c7_numeric_defaults :
    parseF 1 (str "f(uint)") = some (some [ParamType.Uint 256]) ∧
      parseF 1 (str "f(bytes)") = some (some [ParamType.Bytes]) ∧
      parseF 1 (str "f(bytes32)") = some (some [ParamType.FixedBytes 32]) ∧
      (∀ ds fuel, (∀ c ∈ ds, c ∈ lowerAlpha) →
        parseF (fuel + 1) (str "f" ++ '(' :: ((str "uint" ++ ds) ++ [')'])) =
          some (some [ParamType.Uint 256])) ∧
      (∀ ds fuel, ds ≠ [] → (∀ c ∈ ds, c ∈ lowerAlpha) →
        parseF (fuel + 1) (str "f" ++ '(' :: ((str "bytes" ++ ds) ++ [')'])) =
          some (some [ParamType.FixedBytes 32])) := by
  refine ⟨rfl, rfl, rfl, ?_, ?_⟩
  · intro ds fuel h
    exact parse_flat (str "f") [str "uint" ++ ds] [ParamType.Uint 256] fuel
      (by decide)
      (by
        intro t ht
        have ht' : t = str "uint" ++ ds := by simpa using ht
        subst ht'
        refine ⟨?_, ?_, ?_⟩ <;> intro hm <;>
          rcases List.mem_append.mp hm with h1 | h2
        · exact absurd h1 (by decide)
        · exact (lowerAlpha_not_special _ (h _ h2)).1 rfl
        · exact absurd h1 (by decide)
        · exact (lowerAlpha_not_special _ (h _ h2)).2.1 rfl
        · exact absurd h1 (by decide)
        · exact (lowerAlpha_not_special _ (h _ h2)).2.2 rfl)
      (List.Forall₂.cons (classify_uint_lower ds h) List.Forall₂.nil)
      (by simp)
  · intro ds fuel hne h
    exact parse_flat (str "f") [str "bytes" ++ ds] [ParamType.FixedBytes 32] fuel
      (by decide)
      (by
        intro t ht
        have ht' : t = str "bytes" ++ ds := by simpa using ht
        subst ht'
        refine ⟨?_, ?_, ?_⟩ <;> intro hm <;>
          rcases List.mem_append.mp hm with h1 | h2
        · exact absurd h1 (by decide)
        · exact (lowerAlpha_not_special _ (h _ h2)).1 rfl
        · exact absurd h1 (by decide)
        · exact (lowerAlpha_not_special _ (h _ h2)).2.1 rfl
        · exact absurd h1 (by decide)
        · exact (lowerAlpha_not_special _ (h _ h2)).2.2 rfl)
      (List.Forall₂.cons (classify_bytes_lower ds hne h) List.Forall₂.nil)
      (by simp)

/-- Witness for C7: the default-width clauses at the concrete suffix
`wad` — `f(uintwad)` parses to `Uint 256` and `f(byteswad)` to
`FixedBytes 32`. -/
theorem c7_witness :
    str "f" ++ '(' :: ((str "uint" ++ str "wad") ++ [')']) = str "f(uintwad)" ∧
      parseF 1 (str "f" ++ '(' :: ((str "uint" ++ str "wad") ++ [')'])) =
        some (some [ParamType.Uint 256]) ∧
      parseF 1 (str "f" ++ '(' :: ((str "bytes" ++ str "wad") ++ [')'])) =
        some (some [ParamType.FixedBytes 32]) :=
  ⟨rfl,
    c7_numeric_defaults.2.2.2.1 (str "wad") 0 (by decide),
    c7_numeric_defaults.2.2.2.2 (str "wad") 0 (by decide) (by decide)⟩

/-! ## Decimal rendering and the unchecked FixedBytes size -/

theorem digits10_not_special :
    ∀ c ∈ digits10, ¬ c = ',' ∧ ¬ c = '(' ∧ ¬ c = ')' := by decide

theorem digits10_bracket : ∀ c ∈ digits10, (']' == c) = false := by decide

theorem digits10_not_b : ∀ c ∈ digits10, ('b' == c) = false := by decide

theorem digits10_ne_plus : ∀ c ∈ digits10, ¬ c = '+' := by decide

theorem digits10_isDigit : ∀ c ∈ digits10, c.isDigit = true := by decide

theorem digitChar_mem (d : Nat) : digitChar d ∈ digits10 := by
  unfold digitChar
  have h : d % 10 < 10 := Nat.mod_lt _ (by norm_num)
  revert h
  generalize d % 10 = k
  intro h
  interval_cases k <;> decide

theorem digitChar_toNat (d : Nat) : (digitChar d).toNat = 48 + d % 10 := by
  unfold digitChar
  have h : d % 10 < 10 := Nat.mod_lt _ (by norm_num)
  revert h
  generalize d % 10 = k
  intro h
  interval_cases k <;> decide

theorem natDecGo_acc (f : Nat) :
    ∀ (n : Nat) (acc : Str), natDecGo f n acc = natDecGo f n [] ++ acc := by
  induction f with
  | zero => intro n acc; rfl
  | succ f ih =>
      intro n acc
      by_cases hn : n < 10
      · simp [natDecGo, hn]
      · simp only [natDecGo, hn, if_false]
        rw [ih (n / 10) (digitChar (n % 10) :: acc),
          ih (n / 10) (digitChar (n % 10) :: [])]
        simp

theorem natDecGo_mem (f : Nat) :
    ∀ (n : Nat) (acc : Str), (∀ c ∈ acc, c ∈ digits10) →
      ∀ c ∈ natDecGo f n acc, c ∈ digits10 := by
  induction f with
  | zero =>
      intro n acc hacc c hc
      rcases List.mem_cons.mp hc with rfl | h
      · exact digitChar_mem n
      · exact hacc c h
  | succ f ih =>
      intro n acc hacc c hc
      by_cases hn : n < 10
      · simp only [natDecGo, hn, if_true] at hc
        rcases List.mem_cons.mp hc with rfl | h
        · exact digitChar_mem n
        · exact hacc c h
      · simp only [natDecGo, hn, if_false] at hc
        refine ih (n / 10) _ ?_ c hc
        intro c' hc'
        rcases List.mem_cons.mp hc' with rfl | h
        · exact digitChar_mem (n % 10)
        · exact hacc c' h

theorem natDec_mem (n : Nat) : ∀ c ∈ natDec n, c ∈ digits10 :=
  natDecGo_mem n n [] (by simp)

theorem natDecGo_ne_nil (f : Nat) :
    ∀ (n : Nat) (acc : Str), natDecGo f n acc ≠ [] := by
  induction f with
  | zero => intro n acc; simp [natDecGo]
  | succ f ih =>
      intro n acc
      by_cases hn : n < 10
      · simp [natDecGo, hn]
      · simp only [natDecGo, hn, if_false]
        exact ih (n / 10) _

theorem natDec_ne_nil (n : Nat) : natDec n ≠ [] := natDecGo_ne_nil n n []

theorem natDecGo_val (f : Nat) :
    ∀ n, n ≤ f → digitsVal (natDecGo f n []) = n := by
  induction f with
  | zero =>
      intro n hn
      have : n = 0 := Nat.le_zero.mp hn
      subst this
      decide
  | succ f ih =>
      intro n hn
      by_cases h10 : n < 10
      · simp only [natDecGo, h10, if_true]
        simp only [digitsVal, List.foldl_cons, List.foldl_nil]
        rw [digitChar_toNat]
        omega
      · simp only [natDecGo, h10, if_false]
        rw [natDecGo_acc]
        have hdiv : n / 10 ≤ f := by omega
        simp only [digitsVal, List.foldl_append, List.foldl_cons, List.foldl_nil]
        have := ih (n / 10) hdiv
        simp only [digitsVal] at this
        rw [this, digitChar_toNat]
        omega

theorem parseUsize_natDec (n : Nat) (h : n < 2 ^ 64) :
    parseUsize (natDec n) = some n := by
  obtain ⟨x, xs, hx⟩ := List.exists_cons_of_ne_nil (natDec_ne_nil n)
  have hmem : ∀ c ∈ natDec n, c ∈ digits10 := natDec_mem n
  have hxd : x ∈ digits10 := hmem x (by rw [hx]; simp)
  have hsp : stripPlus (natDec n) = natDec n := by
    rw [hx]
    exact stripPlus_cons x xs (digits10_ne_plus x hxd)
  have hval : digitsVal (natDec n) = n := natDecGo_val n n le_rfl
  unfold parseUsize
  rw [hsp, if_neg (natDec_ne_nil n),
    if_pos (List.all_eq_true.mpr (fun c hc => digits10_isDigit c (hmem c hc))),
    hval, if_pos h]

/-- With an empty replacement and a pattern whose first character occurs
nowhere in the string, `replace` is the identity. -/
theorem replaceAllGo_no_match (p : Char) (ps : Str) (f : Nat) :
    ∀ s, (∀ c ∈ s, (p == c) = false) → replaceAllGo (p :: ps) [] f s = s := by
  induction f with
  | zero =>
      intro s hs
      cases s with
      | nil => rfl
      | cons x xs => rfl
  | succ f ih =>
      intro s hs
      cases s with
      | nil => rfl
      | cons x xs =>
          have hpx : (p == x) = false := hs x (by simp)
          rw [show replaceAllGo (p :: ps) [] (f + 1) (x :: xs) =
              if (p :: ps) ≠ [] ∧ (p :: ps).isPrefixOf (x :: xs) then
                [] ++ replaceAllGo (p :: ps) [] f ((x :: xs).drop (p :: ps).length)
              else x :: replaceAllGo (p :: ps) [] f xs from rfl,
            if_neg (fun hab => by
              have hp := hab.2
              simp [List.isPrefixOf, hpx] at hp)]
          rw [ih xs (fun c hc => hs c (List.mem_cons_of_mem _ hc))]

/-- `("bytes" ++ ds).replace("bytes", "")` is exactly `ds` when `ds` has no
`b` (in particular, when `ds` is all digits). -/
theorem replaceAll_bytes_strip (ds : Str)
    (h : ∀ c ∈ ds, ('b' == c) = false) :
    replaceAll (str "bytes" ++ ds) (str "bytes") [] = ds := by
  unfold replaceAll
  have hlen : (str "bytes" ++ ds).length = ds.length + 4 + 1 := by
    rw [List.length_append]
    simp [str]
    omega
  rw [hlen]
  rw [show str "bytes" ++ ds = 'b' :: (str "ytes" ++ ds) from rfl]
  rw [show replaceAllGo (str "bytes") [] (ds.length + 4 + 1)
        ('b' :: (str "ytes" ++ ds)) =
      if (str "bytes") ≠ [] ∧ (str "bytes").isPrefixOf ('b' :: (str "ytes" ++ ds)) then
        [] ++ replaceAllGo (str "bytes") [] (ds.length + 4)
          (('b' :: (str "ytes" ++ ds)).drop (str "bytes").length)
      else 'b' :: replaceAllGo (str "bytes") [] (ds.length + 4) (str "ytes" ++ ds)
    from rfl,
    if_pos ⟨by simp [str], show (str "bytes").isPrefixOf ('b' :: (str "ytes" ++ ds)) = true
      from isPrefixOf_append (str "bytes") ds⟩]
  rw [show ('b' :: (str "ytes" ++ ds)).drop (str "bytes").length = ds from rfl]
  rw [show (str "bytes" : Str) = 'b' :: str "ytes" from rfl]
  rw [replaceAllGo_no_match 'b' (str "ytes") (ds.length + 4) ds h]
  rfl

/-- A `bytes` token whose suffix is the decimal rendering of `n` classifies
to `FixedBytes n` — with no range check on `n`. -/
theorem classify_bytesN (n : Nat) (h : n < 2 ^ 64) :
    classifyPrimitive (str "bytes" ++ natDec n) =
      some (ParamType.FixedBytes n) := by
  have hmem : ∀ c ∈ natDec n, c ∈ digits10 := natDec_mem n
  have hrep : replaceAll (str "bytes" ++ natDec n) (str "bytes") [] = natDec n :=
    replaceAll_bytes_strip _ (fun c hc => digits10_not_b c (hmem c hc))
  have hne2 : ¬ (str "bytes" ++ natDec n = str "bytes") := by
    intro e
    have e2 : str "bytes" ++ natDec n = str "bytes" ++ ([] : Str) :=
      e.trans (List.append_nil (str "bytes")).symm
    exact natDec_ne_nil n (List.append_cancel_left e2)
  rcases List.eq_nil_or_concat (natDec n) with hnil | ⟨ds0, c, hds⟩
  · exact absurd hnil (natDec_ne_nil n)
  · rw [List.concat_eq_append] at hds
    have hc : c ∈ digits10 := hmem c (by rw [hds]; simp)
    have hb1 : (']' == c) = false := digits10_bracket c hc
    have e1 : endsWithS (str "bytes" ++ natDec n) (str "[]") = false := by
      rw [hds, ← List.append_assoc]
      exact endsWith_brackets_false _ c hb1
    have e2 : endsWithS (str "bytes" ++ natDec n) (str "]") = false := by
      rw [hds, ← List.append_assoc]
      exact endsWith_bracket_false _ c hb1
    unfold classifyPrimitive
    rw [if_neg (show ¬ (str "bytes" ++ natDec n = str "address") from fun e => by
        injection e with h1 _
        exact absurd h1 (by decide)),
      if_neg hne2,
      if_neg (show ¬ (str "bytes" ++ natDec n = str "bool") from fun e => by
        injection e with _ e
        injection e with h2 _
        exact absurd h2 (by decide)),
      if_neg (show ¬ (str "bytes" ++ natDec n = str "string") from fun e => by
        injection e with h1 _
        exact absurd h1 (by decide)),
      if_neg (show ¬ (startsWithS (str "bytes" ++ natDec n) (str "(") = true ∧
          ¬ endsWithS (str "bytes" ++ natDec n) (str "]") = true) from
        fun hab => Bool.noConfusion hab.1),
      if_neg (show ¬ endsWithS (str "bytes" ++ natDec n) (str "[]") = true from
        fun hb => Bool.noConfusion (e1 ▸ hb)),
      if_neg (show ¬ endsWithS (str "bytes" ++ natDec n) (str "]") = true from
        fun hb => Bool.noConfusion (e2 ▸ hb)),
      if_neg (show ¬ startsWithS (str "bytes" ++ natDec n) (str "int") = true from
        fun hb => Bool.noConfusion hb),
      if_neg (show ¬ startsWithS (str "bytes" ++ natDec n) (str "uint") = true from
        fun hb => Bool.noConfusion hb),
      if_pos (show startsWithS (str "bytes" ++ natDec n) (str "bytes") = true from
        isPrefixOf_append (str "bytes") (natDec n)),
      hrep, parseUsize_natDec n h]
    rfl

/-- C10 (amended).  The parser emits `FixedBytes` with exactly the size the
token's digits specify (no 1..32 range check): for every `n < 2^64`,
`f(bytesN)` parses to `[FixedBytes n]`. -/
theorem c10_fixedbytes_size_from_token (n : Nat) (fuel : Nat)
    (h : n < 2 ^ 64) :
    parseF (fuel + 1) (str "f" ++ '(' :: ((str "bytes" ++ natDec n) ++ [')'])) =
      some (some [ParamType.FixedBytes n]) :=
  parse_flat (str "f") [str "bytes" ++ natDec n] [ParamType.FixedBytes n] fuel
    (by decide)
    (by
      intro t ht
      have ht' : t = str "bytes" ++ natDec n := by simpa using ht
      subst ht'
      refine ⟨?_, ?_, ?_⟩ <;> intro hm <;>
        rcases List.mem_append.mp hm with h1 | h2
      · exact absurd h1 (by decide)
      · exact (digits10_not_special _ (natDec_mem n _ h2)).1 rfl
      · exact absurd h1 (by decide)
      · exact (digits10_not_special _ (natDec_mem n _ h2)).2.1 rfl
      · exact absurd h1 (by decide)
      · exact (digits10_not_special _ (natDec_mem n _ h2)).2.2 rfl)
    (List.Forall₂.cons (classify_bytesN n h) List.Forall₂.nil)
    (by simp)

/-- Witness for C10 (amended): `n = 33`, an out-of-range size the parser
happily emits. -/
theorem c10_witness :
    str "f" ++ '(' :: ((str "bytes" ++ natDec 33) ++ [')']) = str "f(bytes33)" ∧
      parseF 1 (str "f" ++ '(' :: ((str "bytes" ++ natDec 33) ++ [')'])) =
        some (some [ParamType.FixedBytes 33]) :=
  ⟨rfl, c10_fixedbytes_size_from_token 33 0 (by norm_num)⟩

/-! ## The guarded correctness of the re-merge step

The comma-split/re-merge pipeline does reconstruct the top-level parameter
boundaries (`topLevelSplit`) whenever every comma fragment carries at most
one parenthesis of each kind — then "fragment contains a parenthesis" and
"fragment's parenthesis count" coincide and the per-fragment depth updates
track the character-level depth exactly. -/

theorem containsChar_iff_mem (c : Char) (s : Str) :
    containsChar c s = true ↔ c ∈ s := by
  simp only [containsChar, List.any_eq_true, decide_eq_true_eq]
  constructor
  · rintro ⟨x, hx, rfl⟩
    exact hx
  · intro h
    exact ⟨c, h, rfl⟩

theorem containsChar_count (c : Char) (s : Str) :
    containsChar c s = decide (0 < s.count c) := by
  by_cases h : c ∈ s
  · rw [(containsChar_iff_mem c s).mpr h]
    simp [List.count_pos_iff.mpr h]
  · rw [containsChar_false c s h, List.count_eq_zero.mpr h]
    rfl

theorem tlsGo_frag (f : Str) (hf : ',' ∉ f) :
    ∀ (rest : Str) (d : Int) (cur : Str),
      tlsGo (f ++ rest) d cur = tlsGo rest (d + parenDelta f) (cur ++ f) := by
  induction f with
  | nil =>
      intro rest d cur
      simp [parenDelta]
  | cons x f' ih =>
      intro rest d cur
      have hx : ¬ x = ',' := fun e => hf (by simp [e])
      rw [show (x :: f') ++ rest = x :: (f' ++ rest) from rfl,
        show tlsGo (x :: (f' ++ rest)) d cur =
          if x = ',' ∧ d = 0 then cur :: tlsGo (f' ++ rest) d []
          else tlsGo (f' ++ rest)
            (if x = '(' then d + 1 else if x = ')' then d - 1 else d)
            (cur ++ [x]) from rfl,
        if_neg (fun hab => hx hab.1),
        ih (fun m => hf (List.mem_cons_of_mem _ m)) rest _ (cur ++ [x])]
      have harg : (cur ++ [x]) ++ f' = cur ++ (x :: f') := by simp
      have hdep : (if x = '(' then d + 1 else if x = ')' then d - 1 else d) +
          parenDelta f' = d + parenDelta (x :: f') := by
        simp only [parenDelta, List.count_cons]
        by_cases h1 : x = '('
        · subst h1
          simp
          push_cast
          ring
        · by_cases h2 : x = ')'
          · subst h2
            simp [h1]
            push_cast
            ring
          · have b1 : (x == '(') = false := by simp [h1]
            have b2 : (x == ')') = false := by simp [h2]
            simp [h1, h2, b1, b2]
      rw [harg, hdep]

theorem balFrom_append (f : Str) :
    ∀ (r : Str) (d : Int), balFrom d (f ++ r) = true →
      balFrom (d + parenDelta f) r = true := by
  induction f with
  | nil =>
      intro r d h
      simpa [parenDelta] using h
  | cons x f' ih =>
      intro r d h
      rw [show (x :: f') ++ r = x :: (f' ++ r) from rfl] at h
      by_cases h1 : x = '('
      · subst h1
        rw [show balFrom d ('(' :: (f' ++ r)) = balFrom (d + 1) (f' ++ r)
          from by simp [balFrom]] at h
        have := ih r (d + 1) h
        have e : d + parenDelta ('(' :: f') = (d + 1) + parenDelta f' := by
          simp [parenDelta, List.count_cons]
          push_cast
          ring
        rw [e]
        exact this
      · by_cases h2 : x = ')'
        · subst h2
          rw [show balFrom d (')' :: (f' ++ r)) =
              (decide (0 < d) && balFrom (d - 1) (f' ++ r)) from by
            simp [balFrom]] at h
          have h' := (Bool.and_eq_true _ _).mp h
          have := ih r (d - 1) h'.2
          have e : d + parenDelta (')' :: f') = (d - 1) + parenDelta f' := by
            simp [parenDelta, List.count_cons, h1]
            push_cast
            ring
          rw [e]
          exact this
        · rw [show balFrom d (x :: (f' ++ r)) = balFrom d (f' ++ r) from by
            simp [balFrom, h1, h2]] at h
          have := ih r d h
          have e : d + parenDelta (x :: f') = d + parenDelta f' := by
            have b1 : (x == '(') = false := by simp [h1]
            have b2 : (x == ')') = false := by simp [h2]
            simp [parenDelta, List.count_cons, b1, b2]
          rw [e]
          exact this

theorem balFrom_bound (f : Str) :
    ∀ (r : Str) (d : Int), 0 ≤ d → balFrom d (f ++ r) = true →
      (f.count ')' : Int) ≤ d + f.count '(' := by
  induction f with
  | nil =>
      intro r d hd _
      simpa using hd
  | cons x f' ih =>
      intro r d hd h
      rw [show (x :: f') ++ r = x :: (f' ++ r) from rfl] at h
      by_cases h1 : x = '('
      · subst h1
        rw [show balFrom d ('(' :: (f' ++ r)) = balFrom (d + 1) (f' ++ r)
          from by simp [balFrom]] at h
        have := ih r (d + 1) (by omega) h
        simp only [List.count_cons]
        simp only [show (')' == '(') = false from by decide,
          show ('(' == '(') = true from by decide, if_false, if_true]
        push_cast
        omega
      · by_cases h2 : x = ')'
        · subst h2
          rw [show balFrom d (')' :: (f' ++ r)) =
              (decide (0 < d) && balFrom (d - 1) (f' ++ r)) from by
            simp [balFrom]] at h
          have h' := (Bool.and_eq_true _ _).mp h
          have hdpos : 0 < d := of_decide_eq_true h'.1
          have := ih r (d - 1) (by omega) h'.2
          simp only [List.count_cons]
          simp only [show (')' == ')') = true from by decide,
            show ('(' == ')') = false from by decide, if_false, if_true]
          push_cast
          omega
        · rw [show balFrom d (x :: (f' ++ r)) = balFrom d (f' ++ r) from by
            simp [balFrom, h1, h2]] at h
          have := ih r d hd h
          have b1 : (x == '(') = false := by simp [h1]
          have b2 : (x == ')') = false := by simp [h2]
          simp only [List.count_cons, b1, b2, if_false]
          omega

theorem joinSep_cons2 (t t' : Str) (ts : List Str) :
    joinSep [','] (t :: t' :: ts) = t ++ ',' :: joinSep [','] (t' :: ts) := by
  simp [joinSep]

theorem joinSep_concat (cbuf : List Str) (f : Str) (h : cbuf ≠ []) :
    joinSep [','] (cbuf ++ [f]) = (joinSep [','] cbuf ++ [',']) ++ f := by
  induction cbuf with
  | nil => exact absurd rfl h
  | cons t ts ih =>
      cases ts with
      | nil => simp [joinSep]
      | cons t' ts' =>
          rw [show (t :: t' :: ts') ++ [f] = t :: ((t' :: ts') ++ [f]) from rfl]
          rw [show (t' :: ts') ++ [f] = t' :: (ts' ++ [f]) from rfl]
          rw [joinSep_cons2 t t' (ts' ++ [f])]
          rw [show t' :: (ts' ++ [f]) = (t' :: ts') ++ [f] from rfl]
          rw [ih (by simp), joinSep_cons2 t t' ts']
          simp

theorem remergeGo_cons (f : Str) (fs : List Str) (d : Int)
    (cbuf acc : List Str) :
    remergeGo (f :: fs) d cbuf acc =
      (let d1 := if containsChar '(' f then d + 1 else d
       let cbuf1 := if 0 < d1 then cbuf ++ [f] else cbuf
       let acc1 := if 0 < d1 then acc else acc ++ [f]
       if containsChar ')' f then
         if d1 - 1 = 0 then
           remergeGo fs (d1 - 1) [] (acc1 ++ [joinSep [','] cbuf1])
         else remergeGo fs (d1 - 1) cbuf1 acc1
       else remergeGo fs d1 cbuf1 acc1) := rfl

theorem tlsGo_comma (r : Str) (D : Int) (cur : Str) :
    tlsGo (',' :: r) D cur =
      if D = 0 then cur :: tlsGo r D [] else tlsGo r D (cur ++ [',']) := by
  rw [show tlsGo (',' :: r) D cur =
      if ',' = ',' ∧ D = 0 then cur :: tlsGo r D []
      else tlsGo r (if ',' = '(' then D + 1 else if ',' = ')' then D - 1 else D)
        (cur ++ [',']) from rfl]
  by_cases hD : D = 0
  · rw [if_pos ⟨rfl, hD⟩, if_pos hD]
  · rw [if_neg (fun hab => hD hab.2), if_neg hD]
    rfl

/-- Simulation between the fragment-level re-merge and the character-level
top-level split, for fragment lists whose fragments carry at most one
parenthesis of each kind. -/
theorem remerge_sim (fs : List Str) :
    ∀ (f : Str) (d : Int) (cbuf acc : List Str) (cur : Str),
      0 ≤ d →
      (∀ u ∈ f :: fs, ',' ∉ u ∧ u.count '(' ≤ 1 ∧ u.count ')' ≤ 1) →
      balFrom d (joinSep [','] (f :: fs)) = true →
      (d = 0 → cbuf = [] ∧ cur = []) →
      (0 < d → cbuf ≠ [] ∧ cur = joinSep [','] cbuf ++ [',']) →
      remergeGo (f :: fs) d cbuf acc =
        acc ++ tlsGo (joinSep [','] (f :: fs)) d cur := by
  induction fs with
  | nil =>
      intro f d cbuf acc cur hd hall hbal hinv0 hinvpos
      obtain ⟨hfc, hfa, hfb⟩ := hall f (by simp)
      have hj : joinSep [','] [f] = f := rfl
      rw [hj] at hbal ⊢
      have hbal1 : balFrom d (f ++ []) = true := by simpa using hbal
      have hend : d + parenDelta f = 0 := by
        have h2 := balFrom_append f [] d hbal1
        simpa [balFrom, beq_iff_eq] using h2
      have hbound : (f.count ')' : Int) ≤ d + f.count '(' :=
        balFrom_bound f [] d hd hbal1
      have htls : tlsGo f d cur = [cur ++ f] := by
        calc tlsGo f d cur = tlsGo (f ++ []) d cur := by rw [List.append_nil]
          _ = tlsGo [] (d + parenDelta f) (cur ++ f) := tlsGo_frag f hfc [] d cur
          _ = [cur ++ f] := rfl
      rw [remergeGo_cons, htls]
      rcases Nat.le_one_iff_eq_zero_or_eq_one.mp hfa with ha | ha <;>
        rcases Nat.le_one_iff_eq_zero_or_eq_one.mp hfb with hb | hb
      · -- no parentheses in f: d must be 0, f goes straight through
        have hca : containsChar '(' f = false := by
          rw [containsChar_count, ha]; rfl
        have hcb : containsChar ')' f = false := by
          rw [containsChar_count, hb]; rfl
        have hd0 : d = 0 := by
          simp [parenDelta, ha, hb] at hend; omega
        obtain ⟨-, hcur⟩ := hinv0 hd0
        subst hd0
        simp [hca, hcb, remergeGo, hcur]
      · -- f has only ')': d = 1, buffer flushes
        have hca : containsChar '(' f = false := by
          rw [containsChar_count, ha]; rfl
        have hcb : containsChar ')' f = true := by
          rw [containsChar_count, hb]; rfl
        have hd1 : d = 1 := by
          simp [parenDelta, ha, hb] at hend; omega
        obtain ⟨hcb', hcur⟩ := hinvpos (by omega)
        subst hd1
        simp only [hca, hcb, Bool.false_eq_true, eq_self_iff_true, if_false,
          if_true, if_pos (show (0:Int) < 1 from by norm_num),
          if_pos (show (1:Int) - 1 = 0 from by norm_num)]
        rw [show remergeGo [] ((1:Int) - 1) []
            (acc ++ [joinSep [','] (cbuf ++ [f])]) =
          acc ++ [joinSep [','] (cbuf ++ [f])] from rfl]
        rw [joinSep_concat cbuf f hcb', hcur]
      · -- f has only '(': the end depth would be positive, impossible
        exfalso
        simp [parenDelta, ha, hb] at hend
        omega
      · -- f has both: d = 0, f is buffered alone and flushed
        have hca : containsChar '(' f = true := by
          rw [containsChar_count, ha]; rfl
        have hcb : containsChar ')' f = true := by
          rw [containsChar_count, hb]; rfl
        have hd0 : d = 0 := by
          simp [parenDelta, ha, hb] at hend; omega
        obtain ⟨hcb0, hcur⟩ := hinv0 hd0
        subst hd0
        subst hcb0
        simp only [hca, hcb, eq_self_iff_true, if_true,
          if_pos (show (0:Int) < 0 + 1 from by norm_num),
          if_pos (show (0:Int) + 1 - 1 = 0 from by norm_num)]
        rw [show remergeGo [] ((0:Int) + 1 - 1) []
            (acc ++ [joinSep [','] ([] ++ [f])]) =
          acc ++ [joinSep [','] ([] ++ [f])] from rfl]
        rw [show joinSep [','] ([] ++ [f]) = f from rfl, hcur]
        rfl
  | cons g fs' ih =>
      intro f d cbuf acc cur hd hall hbal hinv0 hinvpos
      obtain ⟨hfc, hfa, hfb⟩ := hall f (by simp)
      have hallg : ∀ u ∈ g :: fs', ',' ∉ u ∧ u.count '(' ≤ 1 ∧ u.count ')' ≤ 1 :=
        fun u hu => hall u (List.mem_cons_of_mem _ hu)
      have hj : joinSep [','] (f :: g :: fs') =
          f ++ ',' :: joinSep [','] (g :: fs') := joinSep_cons2 f g fs'
      have hbal' : balFrom (d + parenDelta f)
          (',' :: joinSep [','] (g :: fs')) = true := by
        rw [hj] at hbal
        exact balFrom_append f _ d hbal
      have hbalR : balFrom (d + parenDelta f) (joinSep [','] (g :: fs')) = true := by
        rw [show balFrom (d + parenDelta f) (',' :: joinSep [','] (g :: fs')) =
          balFrom (d + parenDelta f) (joinSep [','] (g :: fs')) from rfl] at hbal'
        exact hbal'
      have hbound : (f.count ')' : Int) ≤ d + f.count '(' := by
        rw [hj] at hbal
        exact balFrom_bound f _ d hd hbal
      have htls : tlsGo (joinSep [','] (f :: g :: fs')) d cur =
          if d + parenDelta f = 0 then
            (cur ++ f) :: tlsGo (joinSep [','] (g :: fs')) (d + parenDelta f) []
          else tlsGo (joinSep [','] (g :: fs')) (d + parenDelta f)
            ((cur ++ f) ++ [',']) := by
        rw [hj, tlsGo_frag f hfc _ d cur, tlsGo_comma]
      rw [remergeGo_cons, htls]
      rcases Nat.le_one_iff_eq_zero_or_eq_one.mp hfa with ha | ha <;>
        rcases Nat.le_one_iff_eq_zero_or_eq_one.mp hfb with hb | hb
      · -- no parentheses in f
        have hca : containsChar '(' f = false := by
          rw [containsChar_count, ha]; rfl
        have hcb : containsChar ')' f = false := by
          rw [containsChar_count, hb]; rfl
        have hdel : d + parenDelta f = d := by
          simp [parenDelta, ha, hb]
        rw [hdel] at hbalR ⊢
        rcases eq_or_lt_of_le hd with hd0 | hdpos
        · obtain ⟨hcb0, hcur⟩ := hinv0 hd0.symm
          subst hcb0
          simp only [hca, hcb, Bool.false_eq_true, if_false,
            if_pos hd0.symm, if_neg (show ¬ (0:Int) < d from by omega)]
          rw [ih g d [] (acc ++ [f]) [] hd hallg hbalR
            (fun _ => ⟨rfl, rfl⟩) (fun hpos => absurd hpos (by omega))]
          rw [hcur]
          simp
        · obtain ⟨hcne, hcur⟩ := hinvpos hdpos
          simp only [hca, hcb, Bool.false_eq_true, if_false,
            if_neg (show ¬ d = 0 from by omega), if_pos hdpos]
          rw [ih g d (cbuf ++ [f]) acc (joinSep [','] (cbuf ++ [f]) ++ [','])
            hd hallg hbalR (fun h0 => absurd h0 (by omega))
            (fun _ => ⟨by simp, rfl⟩)]
          rw [joinSep_concat cbuf f hcne, hcur]
      · -- f has only ')': depth decreases
        have hca : containsChar '(' f = false := by
          rw [containsChar_count, ha]; rfl
        have hcb : containsChar ')' f = true := by
          rw [containsChar_count, hb]; rfl
        have hdge : (1:Int) ≤ d := by
          rw [ha, hb] at hbound
          push_cast at hbound
          omega
        obtain ⟨hcne, hcur⟩ := hinvpos (by omega)
        have hdel : d + parenDelta f = d - 1 := by
          simp [parenDelta, ha, hb]
          omega
        rw [hdel] at hbalR ⊢
        rcases eq_or_lt_of_le hdge with hd1 | hdgt
        · -- d = 1: flush
          simp only [hca, hcb, Bool.false_eq_true, eq_self_iff_true, if_false,
            if_true, if_pos (show (0:Int) < d from by omega),
            if_pos (show d - 1 = 0 from by omega)]
          rw [ih g (d - 1) [] (acc ++ [joinSep [','] (cbuf ++ [f])]) []
            (by omega) hallg hbalR (fun _ => ⟨rfl, rfl⟩)
            (fun hpos => absurd hpos (by omega))]
          rw [joinSep_concat cbuf f hcne, hcur]
          simp
        · -- d > 1: stay buffered
          simp only [hca, hcb, Bool.false_eq_true, eq_self_iff_true, if_false,
            if_true, if_pos (show (0:Int) < d from by omega),
            if_neg (show ¬ d - 1 = 0 from by omega)]
          rw [ih g (d - 1) (cbuf ++ [f]) acc
            (joinSep [','] (cbuf ++ [f]) ++ [','])
            (by omega) hallg hbalR (fun h0 => absurd h0 (by omega))
            (fun _ => ⟨by simp, rfl⟩)]
          rw [joinSep_concat cbuf f hcne, hcur]
      · -- f has only '(': depth increases
        have hca : containsChar '(' f = true := by
          rw [containsChar_count, ha]; rfl
        have hcb : containsChar ')' f = false := by
          rw [containsChar_count, hb]; rfl
        have hdel : d + parenDelta f = d + 1 := by
          simp [parenDelta, ha, hb]
        rw [hdel] at hbalR ⊢
        rcases eq_or_lt_of_le hd with hd0 | hdpos
        · obtain ⟨hcb0, hcur⟩ := hinv0 hd0.symm
          subst hcb0
          simp only [hca, hcb, Bool.false_eq_true, eq_self_iff_true, if_false,
            if_true, if_pos (show (0:Int) < d + 1 from by omega),
            if_neg (show ¬ d + 1 = 0 from by omega)]
          rw [ih g (d + 1) ([] ++ [f]) acc
            (joinSep [','] ([] ++ [f]) ++ [','])
            (by omega) hallg hbalR (fun h0 => absurd h0 (by omega))
            (fun _ => ⟨by simp, rfl⟩)]
          rw [show joinSep [','] ([] ++ [f]) = f from rfl, hcur]
          simp
        · obtain ⟨hcne, hcur⟩ := hinvpos hdpos
          simp only [hca, hcb, Bool.false_eq_true, eq_self_iff_true, if_false,
            if_true, if_pos (show (0:Int) < d + 1 from by omega),
            if_neg (show ¬ d + 1 = 0 from by omega)]
          rw [ih g (d + 1) (cbuf ++ [f]) acc
            (joinSep [','] (cbuf ++ [f]) ++ [','])
            (by omega) hallg hbalR (fun h0 => absurd h0 (by omega))
            (fun _ => ⟨by simp, rfl⟩)]
          rw [joinSep_concat cbuf f hcne, hcur]
      · -- f has both parentheses: net depth unchanged
        have hca : containsChar '(' f = true := by
          rw [containsChar_count, ha]; rfl
        have hcb : containsChar ')' f = true := by
          rw [containsChar_count, hb]; rfl
        have hdel : d + parenDelta f = d := by
          simp [parenDelta, ha, hb]
        rw [hdel] at hbalR ⊢
        rcases eq_or_lt_of_le hd with hd0 | hdpos
        · obtain ⟨hcb0, hcur⟩ := hinv0 hd0.symm
          subst hcb0
          simp only [hca, hcb, eq_self_iff_true, if_true,
            if_pos (show (0:Int) < d + 1 from by omega),
            if_pos (show d + 1 - 1 = 0 from by omega),
            if_pos hd0.symm]
          rw [show d + 1 - 1 = d from by omega]
          rw [ih g d [] (acc ++ [joinSep [','] ([] ++ [f])]) []
            hd hallg hbalR (fun _ => ⟨rfl, rfl⟩)
            (fun hpos => absurd hpos (by omega))]
          rw [show joinSep [','] ([] ++ [f]) = f from rfl, hcur]
          simp
        · obtain ⟨hcne, hcur⟩ := hinvpos hdpos
          simp only [hca, hcb, eq_self_iff_true, if_true,
            if_pos (show (0:Int) < d + 1 from by omega),
            if_neg (show ¬ d + 1 - 1 = 0 from by omega),
            if_neg (show ¬ d = 0 from by omega)]
          rw [show d + 1 - 1 = d from by omega]
          rw [ih g d (cbuf ++ [f]) acc
            (joinSep [','] (cbuf ++ [f]) ++ [','])
            hd hallg hbalR (fun h0 => absurd h0 (by omega))
            (fun _ => ⟨by simp, rfl⟩)]
          rw [joinSep_concat cbuf f hcne, hcur]

theorem joinSep_cons_cons (sep t t' : Str) (ts : List Str) :
    joinSep sep (t :: t' :: ts) = t ++ sep ++ joinSep sep (t' :: ts) := rfl

theorem splitChar_ne_nil (c : Char) (s : Str) : splitChar c s ≠ [] := by
  cases s with
  | nil => simp [splitChar]
  | cons x xs =>
      by_cases hx : x = c
      · simp [splitChar, hx]
      · simp only [splitChar, if_neg hx]
        cases splitChar c xs <;> simp

theorem splitChar_not_mem (c : Char) (s : Str) :
    ∀ f ∈ splitChar c s, c ∉ f := by
  induction s with
  | nil =>
      intro f hf
      simp [splitChar] at hf
      simp [hf]
  | cons x xs ih =>
      intro f hf
      by_cases hx : x = c
      · rw [show splitChar c (x :: xs) = [] :: splitChar c xs from by
          simp [splitChar, hx]] at hf
        rcases List.mem_cons.mp hf with rfl | hmem
        · simp
        · exact ih f hmem
      · simp only [splitChar, if_neg hx] at hf
        cases hsp : splitChar c xs with
        | nil => exact absurd hsp (splitChar_ne_nil c xs)
        | cons r rs =>
            rw [hsp] at hf
            rcases List.mem_cons.mp hf with rfl | hmem
            · intro hc
              rcases List.mem_cons.mp hc with hcx | hcr
              · exact hx hcx.symm
              · exact ih r (by rw [hsp]; simp) hcr
            · exact ih f (by rw [hsp]; exact List.mem_cons_of_mem _ hmem)

theorem joinSep_splitChar (c : Char) (s : Str) :
    joinSep [c] (splitChar c s) = s := by
  induction s with
  | nil => rfl
  | cons x xs ih =>
      by_cases hx : x = c
      · subst hx
        rw [show splitChar x (x :: xs) = [] :: splitChar x xs from by
          simp [splitChar]]
        cases hsp : splitChar x xs with
        | nil => exact absurd hsp (splitChar_ne_nil x xs)
        | cons r rs =>
            rw [hsp] at ih
            rw [joinSep_cons_cons, ih]
            rfl
      · simp only [splitChar, if_neg hx]
        cases hsp : splitChar c xs with
        | nil => exact absurd hsp (splitChar_ne_nil c xs)
        | cons r rs =>
            rw [hsp] at ih
            cases rs with
            | nil =>
                show joinSep [c] [x :: r] = x :: xs
                have hr : r = xs := by
                  rw [show joinSep [c] [r] = r from rfl] at ih
                  exact ih
                rw [show joinSep [c] [x :: r] = x :: r from rfl, hr]
            | cons r2 rs2 =>
                show joinSep [c] ((x :: r) :: r2 :: rs2) = x :: xs
                rw [joinSep_cons_cons, ← ih, joinSep_cons_cons]
                simp

/-- C5 (amended).  The comma-split/re-merge step reconstructs exactly the
top-level parameter boundaries for every balanced parameter list whose
comma fragments each carry at most one `(` and at most one `)` (i.e. no
nested tuple closes or opens immediately next to its enclosing one); the
counterexample `(bool,(bool,bool))` shows the restriction is necessary. -/
theorem c5_remerge_reconstructs_when_fragments_simple (s : Str)
    (hbal : balFrom 0 s = true)
    (hfrag : ∀ f ∈ splitChar ',' s, f.count '(' ≤ 1 ∧ f.count ')' ≤ 1) :
    remerge (splitChar ',' s) = topLevelSplit s := by
  cases hsp : splitChar ',' s with
  | nil => exact absurd hsp (splitChar_ne_nil ',' s)
  | cons f fs =>
      have hjoin : joinSep [','] (f :: fs) = s := by
        rw [← hsp]
        exact joinSep_splitChar ',' s
      have hall : ∀ u ∈ f :: fs, ',' ∉ u ∧ u.count '(' ≤ 1 ∧ u.count ')' ≤ 1 := by
        intro u hu
        exact ⟨splitChar_not_mem ',' s u (hsp ▸ hu), (hfrag u (hsp ▸ hu)).1,
          (hfrag u (hsp ▸ hu)).2⟩
      unfold remerge topLevelSplit
      rw [remerge_sim fs f 0 [] [] [] le_rfl hall (by rw [hjoin]; exact hbal)
        (fun _ => ⟨rfl, rfl⟩) (fun h => absurd h (by omega)), hjoin]
      rfl

/-- Witness for C5 (amended): the parameter list `bool,(bool,bool)`, whose
fragments are simple, is reconstructed exactly. -/
theorem c5_witness :
    balFrom 0 (str "bool,(bool,bool)") = true ∧
      remerge (splitChar ',' (str "bool,(bool,bool)")) =
        topLevelSplit (str "bool,(bool,bool)") :=
  ⟨by decide,
    c5_remerge_reconstructs_when_fragments_simple (str "bool,(bool,bool)")
      (by decide) (by decide)⟩

end Heimdall
